import Mathlib

/-!
Shallow embedding of the `bn_backtest_framework` simulation engine
(src/backtest/backtest.py, order.py, position.py) and proofs about it.

Conventions of the embedding:
* Python floats for prices, quantities and cash increments are modelled as `ℚ`.
* The starting equity / cash balance may be `float("inf")`; it is modelled by
  the two-constructor type `XF` (finite rational or positive infinity).
* Statistics values that can be IEEE special values are modelled by `PyF`
  (finite, +inf, -inf, nan).
* Timestamps (the rows' index labels) are modelled as `ℕ`; the engine relies
  on a strictly increasing, duplicate-free index, and pandas label slices
  `.loc[a:b]` over such an index are embedded as pointwise comparisons
  `a ≤ t ∧ t ≤ b` (both ends inclusive, empty when `a > b`).
* Fallible Python code (raised exceptions) is modelled with `Except`;
  state-mutating functions return `Except (PyErr × BState) BState` where the
  error case carries the object state at the moment the exception is raised
  (Python exceptions do not roll back mutations already performed).
-/

deriving instance DecidableEq for Except

attribute [local semireducible] Rat.add Rat.sub Rat.mul Rat.inv

/-- Python exception classes that the embedded code can raise.  The dynamic
message strings of the `ValueError`s are replaced by the enumeration `VErr`. -/
inductive VErr where
  | provideExactlyOne      -- "Provide exactly one of 'quantity' or 'value' in TradeAction"
  | invalidAction          -- "Invalid action. Must be 'enter' or 'exit'."
  | positionIdRequired     -- "Position ID must be provided for exit action."
  | negativeBuyingPower    -- "Buying power is negative: ..."
  | insufficientBuyingPower -- "Insufficient buying power to execute order"
  deriving DecidableEq, Repr

/-- Python exceptions reachable from the embedded code. -/
inductive PyErr where
  | valueError (v : VErr)
  | stopIteration          -- next() on an exhausted generator (`_is_buy_order`)
  | typeError              -- arithmetic/comparison on None
  | zeroDivisionError      -- float division by zero
  | keyError               -- pandas Index.get_loc on a missing label
  | indexError             -- sequence index out of range
  deriving DecidableEq, Repr

/-- Cash / equity values: either the `float("inf")` sentinel used for an
unconstrained backtest, or a finite value. -/
inductive XF where
  | inf
  | fin (q : ℚ)
  deriving DecidableEq, Repr

namespace XF

/-- Subtract a finite float from a possibly-infinite one (`inf - q = inf`). -/
def subQ : XF → ℚ → XF
  | inf, _ => inf
  | fin a, q => fin (a - q)

/-- Add a finite float to a possibly-infinite one (`inf + q = inf`). -/
def addQ : XF → ℚ → XF
  | inf, _ => inf
  | fin a, q => fin (a + q)

/-- The Python comparison `x < 0` (`inf < 0` is `False`). -/
def ltZero : XF → Bool
  | inf => false
  | fin a => decide (a < 0)

/-- The Python comparison `x < q` against a finite float. -/
def ltQ : XF → ℚ → Bool
  | inf, _ => false
  | fin a, q => decide (a < q)

end XF

/-- IEEE-style float results reachable in the statistics module. -/
inductive PyF where
  | nan
  | pinf
  | ninf
  | fin (q : ℚ)
  deriving DecidableEq, Repr

namespace PyF

/-- IEEE division of two finite numpy floats: division by zero yields a
signed infinity (or nan for 0/0) instead of raising. -/
def pydiv (a b : ℚ) : PyF :=
  if b = 0 then (if 0 < a then pinf else if a < 0 then ninf else nan)
  else fin (a / b)

/-- Multiply a float by a finite rational constant. -/
def mulQ : PyF → ℚ → PyF
  | nan, _ => nan
  | pinf, c => if 0 < c then pinf else if c < 0 then ninf else nan
  | ninf, c => if 0 < c then ninf else if c < 0 then pinf else nan
  | fin a, c => fin (a * c)

/-- Subtract a finite rational constant from a float. -/
def subQ : PyF → ℚ → PyF
  | nan, _ => nan
  | pinf, _ => pinf
  | ninf, _ => ninf
  | fin a, c => fin (a - c)

/-- Add a finite rational constant to a float. -/
def addQ : PyF → ℚ → PyF
  | nan, _ => nan
  | pinf, _ => pinf
  | ninf, _ => ninf
  | fin a, c => fin (a + c)

/-- The IEEE order on non-`nan` floats, as used by the `skipna` folds of
`Series.max` / `Series.min` / `Series.cummax` (pandas skips missing values,
so `nan` never reaches the comparison; those rows are `false` here). -/
def le : PyF → PyF → Bool
  | nan, _ => false
  | _, nan => false
  | ninf, _ => true
  | _, pinf => true
  | pinf, _ => false
  | _, ninf => false
  | fin a, fin b => decide (a ≤ b)

/-- IEEE subtraction of two numpy floats (`nan` propagates, opposite
infinities cancel to `nan`). -/
def sub : PyF → PyF → PyF
  | nan, _ => nan
  | _, nan => nan
  | fin a, fin b => fin (a - b)
  | pinf, pinf => nan
  | pinf, _ => pinf
  | ninf, ninf => nan
  | ninf, _ => ninf
  | fin _, pinf => ninf
  | fin _, ninf => pinf

/-- IEEE division of two numpy floats: `nan` propagates, a finite value
divided by an infinity is `0.0`, an infinity divided by an infinity is
`nan`, and division by zero follows `pydiv` (numpy warns, it does not
raise). -/
def div : PyF → PyF → PyF
  | nan, _ => nan
  | _, nan => nan
  | fin a, fin b => pydiv a b
  | fin _, pinf => fin 0
  | fin _, ninf => fin 0
  | pinf, fin b => if 0 ≤ b then pinf else ninf
  | ninf, fin b => if 0 ≤ b then ninf else pinf
  | pinf, pinf => nan
  | pinf, ninf => nan
  | ninf, pinf => nan
  | ninf, ninf => nan

end PyF

/-- The starting equity seen as a numpy float value: `float("inf")` or its
finite value, as it enters the float arithmetic of `stats`. -/
def XF.toPyF : XF → PyF
  | XF.inf => PyF.pinf
  | XF.fin a => PyF.fin a

/-- One row of the OHLCV input table (`data.iloc[k]`); `time` is the row's
index label (`.name`).  Field names follow the pandas column names. -/
structure Bar where
  time : ℕ
  Open : ℚ
  High : ℚ
  Low : ℚ
  Close : ℚ
  Volume : ℚ
  deriving DecidableEq, Repr

/-- src/backtest/order.py, `Order`: an intent emitted by the strategy. -/
structure Order where
  action : String
  quantity : Option ℚ := none
  value : Option ℚ := none
  price : Option ℚ := none
  position_id : Option String := none
  deriving DecidableEq, Repr

/-- Modelled from the spec: `order.is_limit` is referenced by the engine's
partition step (backtest.py, `Backtest.run`) but no definition exists
anywhere under src/; per the spec, a present `price` marks a limit order and
an absent `price` marks a market order. -/
def Order.is_limit (o : Order) : Bool := o.price.isSome

/-- src/backtest/position.py, `Position`. -/
structure Position where
  id : String
  entry_time : ℕ
  entry_price : ℚ
  exit_time : Option ℕ := none
  exit_price : Option ℚ := none
  quantity : ℚ
  deriving DecidableEq, Repr

/-- `Position.is_open`: the position is open when `exit_time` is `None`. -/
def Position.is_open (p : Position) : Bool := p.exit_time.isNone

/-- `Position.is_closed`: the position is closed when `exit_time` is set. -/
def Position.is_closed (p : Position) : Bool := p.exit_time.isSome

/-- The mutable state of a `Backtest` object that the engine's loop touches:
`self.cash_balance`, `self.positions`, `self.open_orders`. -/
structure BState where
  cash_balance : XF
  positions : List Position
  open_orders : List Order
  deriving DecidableEq, Repr

namespace Backtest

/-- Python's built-in `abs` on a float. -/
def pyabs (q : ℚ) : ℚ := if q < 0 then -q else q

/-- `Backtest._is_buy_order`.  For an `exit` order it looks up the referenced
position with `next(...)`, which raises `StopIteration` when no position
matches; for an `enter` order it uses Python truthiness
(`order.quantity > 0 if order.quantity else order.value > 0`), so a `None`
or `0` quantity falls through to `value`, and a `None` value then raises a
`TypeError` from the comparison with `None`. -/
def is_buy_order (positions : List Position) (o : Order) : Except PyErr Bool :=
  if o.action = "exit" then
    match positions.find? (fun p => some p.id == o.position_id) with
    | some p => .ok (decide (p.quantity < 0))
    | none => .error .stopIteration
  else
    match o.quantity with
    | some q =>
      if q ≠ 0 then .ok (decide (q > 0))
      else
        match o.value with
        | some v => .ok (decide (v > 0))
        | none => .error .typeError
    | none =>
      match o.value with
      | some v => .ok (decide (v > 0))
      | none => .error .typeError

/-- The notional locked by one resting enter order inside
`Backtest._calculate_buying_power`:
`order.quantity * order.price if order.quantity else order.value`
(Python truthiness on `quantity`; a `None` operand raises `TypeError`). -/
def locked_value (o : Order) : Except PyErr ℚ :=
  match o.quantity with
  | some q =>
    if q ≠ 0 then
      match o.price with
      | some p => .ok (q * p)
      | none => .error .typeError
    else
      match o.value with
      | some v => .ok v
      | none => .error .typeError
  | none =>
    match o.value with
    | some v => .ok v
    | none => .error .typeError

/-- Left-to-right effectful filter, modelling a Python list comprehension
whose predicate can raise. -/
def filterExc (f : α → Except PyErr Bool) : List α → Except PyErr (List α)
  | [] => .ok []
  | a :: as =>
    match f a with
    | .error e => .error e
    | .ok b =>
      match filterExc f as with
      | .error e => .error e
      | .ok l => .ok (if b then a :: l else l)

/-- Left-to-right effectful map, modelling a Python list comprehension whose
body can raise. -/
def mapExc (f : α → Except PyErr β) : List α → Except PyErr (List β)
  | [] => .ok []
  | a :: as =>
    match f a with
    | .error e => .error e
    | .ok b =>
      match mapExc f as with
      | .error e => .error e
      | .ok l => .ok (b :: l)

/-- `Backtest._calculate_buying_power` at its scalar call site
(`_fulfill_order`, where `price` is the next bar's Open, a float):
cash minus open-short exposure at `price` minus notional locked in resting
enter buy orders. -/
def calculate_buying_power (st : BState) (price : ℚ) : Except PyErr XF :=
  let open_short_positions :=
    st.positions.filter (fun p => p.is_open && decide (p.quantity < 0))
  let short_exposure : ℚ :=
    (open_short_positions.map (fun p => price * pyabs p.quantity)).sum
  let open_enter_orders := st.open_orders.filter (fun o => o.action == "enter")
  match filterExc (is_buy_order st.positions) open_enter_orders with
  | .error e => .error e
  | .ok buys =>
    match mapExc locked_value buys with
    | .error e => .error e
    | .ok locked => .ok ((st.cash_balance.subQ short_exposure).subQ locked.sum)

/-- `Backtest._calculate_buying_power` at its call site in `Backtest.run`,
where the argument is not a scalar but the whole next-bar row
(`self._calculate_buying_power(next_data)`).  `price * abs(pos.quantity)`
is then a 5-element Series, and `np.sum` over the list of Series flattens
the stacked array and adds every element, so each open short contributes
`|quantity| * (Open + High + Low + Close + Volume)`. -/
def calculate_buying_power_row (st : BState) (next_data : Bar) : Except PyErr XF :=
  let open_short_positions :=
    st.positions.filter (fun p => p.is_open && decide (p.quantity < 0))
  let short_exposure : ℚ :=
    (open_short_positions.map (fun p =>
      (next_data.Open + next_data.High + next_data.Low +
        next_data.Close + next_data.Volume) * pyabs p.quantity)).sum
  let open_enter_orders := st.open_orders.filter (fun o => o.action == "enter")
  match filterExc (is_buy_order st.positions) open_enter_orders with
  | .error e => .error e
  | .ok buys =>
    match mapExc locked_value buys with
    | .error e => .error e
    | .ok locked => .ok ((st.cash_balance.subQ short_exposure).subQ locked.sum)

/-- The exit branch of `Backtest._fulfill_order`: walk
`self._get_open_positions()` (first open position whose id equals the
order's `position_id`), set its exit price/time, and report its quantity
for the cash credit; `none` when no open position matches (the Python loop
then just falls through — nothing happens). -/
def close_first_open (ps : List Position) (pid : Option String) (price : ℚ)
    (t : ℕ) : Option (List Position × ℚ) :=
  match ps with
  | [] => none
  | p :: rest =>
    if p.is_open && (some p.id == pid) then
      some (({ p with exit_price := some price, exit_time := some t }) :: rest,
        p.quantity)
    else
      match close_first_open rest pid price t with
      | some (rest2, q) => some (p :: rest2, q)
      | none => none

/-- The state change of the enter branch of `Backtest._fulfill_order` once
the checks passed: append a new `Position` whose id is the decimal string of
the new ledger length, and debit cash by the entry cost. -/
def enter_new (st : BState) (q : ℚ) (price : ℚ) (t : ℕ) : BState :=
  { st with
    positions := st.positions ++
      [{ id := Nat.repr (st.positions.length + 1), entry_time := t,
         entry_price := price, exit_time := none, exit_price := none,
         quantity := q }],
    cash_balance := st.cash_balance.subQ (q * price) }

/-- `Backtest._fulfill_order`.  Returns the new state together with the
order as left behind by the call (its `quantity` is resolved in place from
`value` on the enter path).  Errors carry the state at the raise point. -/
def fulfill_order (st : BState) (o : Order) (execution_price : ℚ)
    (execution_time : ℕ) (check_buying_power : Bool) :
    Except (PyErr × BState) (BState × Order) :=
  if o.action = "exit" then
    match close_first_open st.positions o.position_id execution_price
        execution_time with
    | some (ps2, q) =>
      .ok ({ st with
              positions := ps2,
              cash_balance := st.cash_balance.addQ (q * execution_price) }, o)
    | none => .ok (st, o)
  else if o.action = "enter" then
    match o.value with
    | some v =>
      if execution_price = 0 then .error (.zeroDivisionError, st)
      else
        let o2 : Order := { o with quantity := some (v / execution_price) }
        let entry_cost := (v / execution_price) * execution_price
        if check_buying_power then
          match calculate_buying_power st execution_price with
          | .error e => .error (e, st)
          | .ok bp =>
            if bp.ltQ entry_cost then
              .error (.valueError .insufficientBuyingPower, st)
            else .ok (enter_new st (v / execution_price) execution_price
              execution_time, o2)
        else .ok (enter_new st (v / execution_price) execution_price
          execution_time, o2)
    | none =>
      match o.quantity with
      | none => .error (.typeError, st)
      | some q =>
        let entry_cost := q * execution_price
        if check_buying_power then
          match calculate_buying_power st execution_price with
          | .error e => .error (e, st)
          | .ok bp =>
            if bp.ltQ entry_cost then
              .error (.valueError .insufficientBuyingPower, st)
            else .ok (enter_new st q execution_price execution_time, o)
        else .ok (enter_new st q execution_price execution_time, o)
  else .ok (st, o)

/-- `Backtest._is_limit_order_condition_met`: `_is_buy_order` is evaluated
first (so its exception wins); a buy-direction order triggers when the next
bar's Low is at or below the limit price, a sell-direction one when the High
is at or above it.  A `None` price would make the comparison raise. -/
def is_limit_order_condition_met (positions : List Position) (o : Order)
    (next_interval_data : Bar) : Except PyErr Bool :=
  match is_buy_order positions o with
  | .error e => .error e
  | .ok b =>
    match o.price with
    | none => .error .typeError
    | some p =>
      .ok (if b then decide (next_interval_data.Low ≤ p)
        else decide (next_interval_data.High ≥ p))

theorem fulfill_order_open_orders_eq {st : BState} {o : Order} {price : ℚ}
    {t : ℕ} {chk : Bool} {st1 : BState} {o2 : Order}
    (h : fulfill_order st o price t chk = .ok (st1, o2)) :
    st1.open_orders = st.open_orders := by
  unfold fulfill_order at h
  repeat' first
    | split at h
    | dsimp only at h
  all_goals
    first
      | exact Except.noConfusion h
      | (injection h with h1; injection h1 with h2 h3; subst h2; rfl)

/-- `Backtest._fulfill_limit_orders`, which is called as
`self._fulfill_limit_orders(self.open_orders, next_data)`:
the Python `for` loop iterates *the same list object* that
`self.open_orders.remove(order)` mutates, so it is embedded as an explicit
cursor `i` into the current `open_orders`.  When the order at the cursor
triggers, `_fulfill_order` first mutates it in place (resolving `quantity`
from `value`), the book entry therefore becomes the resolved order
(`List.set i o2`), and `remove` then deletes the first structurally equal
element (`List.erase`); the cursor still advances, which skips the element
that slid into the freed slot. -/
def fulfill_limit_go (next_interval_data : Bar) : ℕ → BState → ℕ →
    Except (PyErr × BState) BState
  | 0, st, _ => .ok st
  | fuel + 1, st, i =>
    if h : i < st.open_orders.length then
      let o := st.open_orders[i]
      match is_buy_order st.positions o, o.price with
      | .error e, _ => .error (e, st)
      | .ok _, none => .error (.typeError, st)
      | .ok b, some p =>
        if (if b then decide (next_interval_data.Low ≤ p)
            else decide (next_interval_data.High ≥ p)) then
          match fulfill_order st o p next_interval_data.time false with
          | .error es => .error es
          | .ok (st1, o2) =>
            fulfill_limit_go next_interval_data fuel
              { st1 with open_orders := (st1.open_orders.set i o2).erase o2 }
              (i + 1)
        else fulfill_limit_go next_interval_data fuel st (i + 1)
    else .ok st

/-- `Backtest._fulfill_limit_orders`, called on `self.open_orders` itself.
The `fuel` argument of `fulfill_limit_go` is only an iteration bound making
the recursion structural: it starts as `length - i` and every iteration
increments `i` by one while never lengthening the book, so `length - i ≤
fuel` stays invariant and when the fuel hits `0` the cursor is already past
the end of the book — exactly the Python loop's normal exit. -/
def fulfill_limit_orders (st : BState) (next_interval_data : Bar) :
    Except (PyErr × BState) BState :=
  fulfill_limit_go next_interval_data st.open_orders.length st 0

/-- The sort key of `Backtest._fulfill_market_orders`:
`0 if order.action == "exit" else 1`. -/
def exit_key (o : Order) : ℕ := if o.action == "exit" then 0 else 1

/-- Insert an element after every already-placed element whose key is less
than or equal to its own: the characteristic step of a stable sort. -/
def ins_after (key : Order → ℕ) (o : Order) : List Order → List Order
  | [] => [o]
  | b :: bs => if key b ≤ key o then b :: ins_after key o bs else o :: b :: bs

/-- Python's `sorted(orders, key=...)`, which is guaranteed stable: elements
are ordered by key and elements with equal keys keep their original order.
The stable result is computed by left-to-right stable insertion. -/
def py_sorted_stable (key : Order → ℕ) (l : List Order) : List Order :=
  l.foldl (fun acc o => ins_after key o acc) []

/-- The per-order body of `Backtest._fulfill_market_orders`: each order is
fulfilled at the next bar's Open with the buying-power check enabled. -/
def fulfill_orders_seq (st : BState) (next_interval_data : Bar) :
    List Order → Except (PyErr × BState) BState
  | [] => .ok st
  | o :: rest =>
    match fulfill_order st o next_interval_data.Open next_interval_data.time
        true with
    | .error es => .error es
    | .ok (st1, _) => fulfill_orders_seq st1 next_interval_data rest

/-- `Backtest._fulfill_market_orders`: sort exit orders before enter orders
(stably), then fulfill them in sequence at the next bar's Open. -/
def fulfill_market_orders (st : BState) (orders : List Order)
    (next_interval_data : Bar) : Except (PyErr × BState) BState :=
  fulfill_orders_seq st next_interval_data (py_sorted_stable exit_key orders)

/-- `Backtest._update_open_orders`: append the new limit orders to the book. -/
def update_open_orders (st : BState) (orders : List Order) : BState :=
  { st with open_orders := st.open_orders ++ orders }

/-- The validation checks of `Backtest.run` applied to a single order, in
source order; returns the first error raised, if any. -/
def validate_order (o : Order) : Option PyErr :=
  if o.action == "enter" && (o.quantity.isNone == o.value.isNone) then
    some (.valueError .provideExactlyOne)
  else if !(o.action == "enter" || o.action == "exit") then
    some (.valueError .invalidAction)
  else if o.action == "exit" && o.position_id.isNone then
    some (.valueError .positionIdRequired)
  else none

/-- The validation loop of `Backtest.run`: first failing order aborts. -/
def validate_orders : List Order → Option PyErr
  | [] => none
  | o :: rest =>
    match validate_order o with
    | some e => some e
    | none => validate_orders rest

/-- One iteration of the loop in `Backtest.run`, parameterised by the list
of orders the strategy returns for this step.  In source order: the
buying-power check against the whole next-bar row, the strategy call (its
result is the `orders` argument), validation, the limit/market partition on
`is_limit`, appending limit orders to the book, fulfilling market orders,
then fulfilling eligible resting limit orders. -/
def run_step (st : BState) (next_data : Bar) (orders : List Order) :
    Except (PyErr × BState) BState :=
  match calculate_buying_power_row st next_data with
  | .error e => .error (e, st)
  | .ok buying_power =>
    if buying_power.ltZero then
      .error (.valueError .negativeBuyingPower, st)
    else
      match validate_orders orders with
      | some e => .error (e, st)
      | none =>
        let limit_orders := orders.filter (fun o => o.is_limit)
        let market_orders := orders.filter (fun o => !o.is_limit)
        let st1 := update_open_orders st limit_orders
        match fulfill_market_orders st1 market_orders next_data with
        | .error es => .error es
        | .ok st2 => fulfill_limit_orders st2 next_data

/-- The whole loop of `Backtest.run`, abstracted over the strategy: each
step is given as the pair of the next bar and the orders the strategy
returns at that step. -/
def run_steps (st : BState) : List (Bar × List Order) →
    Except (PyErr × BState) BState
  | [] => .ok st
  | (bar, orders) :: rest =>
    match run_step st bar orders with
    | .error es => .error es
    | .ok st1 => run_steps st1 rest

/-- Python sequence indexing `l[i]` with negative-index wraparound; an index
out of range raises `IndexError`. -/
def py_index_get (l : List ℕ) (i : ℤ) : Except PyErr ℕ :=
  let j : ℤ := if 0 ≤ i then i else (l.length : ℤ) + i
  if h : 0 ≤ j ∧ j.toNat < l.length then .ok (l.get ⟨j.toNat, h.2⟩)
  else .error .indexError

/-- pandas `Index.get_loc` over the engine's unique index: the integer
position of a label; a missing label raises `KeyError`. -/
def get_loc (times : List ℕ) (t : ℕ) : Except PyErr ℕ :=
  match times.findIdx? (fun u => u == t) with
  | some j => .ok j
  | none => .error .keyError

/-- The label of the last bar on which a position contributes market value
(`last_quantity_idx` in `Backtest._calculate_pnl`): integer position
`get_loc(exit_time) - 1` for a closed position and `-1` for an open one,
both resolved through Python indexing (negative positions wrap around). -/
def last_quantity_time (times : List ℕ) (p : Position) : Except PyErr ℕ :=
  match p.exit_time with
  | some xt =>
    match get_loc times xt with
    | .error e => .error e
    | .ok j => py_index_get times ((j : ℤ) - 1)
  | none => py_index_get times (-1)

/-- Python dict assignment `d[k] = v`: replace in place when the key already
exists (keeping its position), else append at the end. -/
def dict_insert (d : List (String × List ℚ)) (k : String) (v : List ℚ) :
    List (String × List ℚ) :=
  if d.any (fun kv => kv.1 == k) then
    d.map (fun kv => if kv.1 == k then (k, v) else kv)
  else d ++ [(k, v)]

/-- Python dict lookup `d[k]` as an `Option`. -/
def dict_get (d : List (String × List ℚ)) (k : String) : Option (List ℚ) :=
  match d.find? (fun kv => kv.1 == k) with
  | some kv => some kv.2
  | none => none

/-- The per-position body of the loop in `Backtest._calculate_pnl`,
threading the running cash series and the dict of per-position value
columns.  In source order: compute the entry value, resolve the last label
on which the position holds quantity (this can raise), subtract the entry
value from cash from `entry_time` onward, add the exit value from
`exit_time` onward when closed (a closed position with a missing exit price
raises from `None` arithmetic), and record the value column
`quantity * Close` over the inclusive label range
`entry_time .. last_quantity_idx`. -/
def process_position (data : List Bar)
    (acc : List ℚ × List (String × List ℚ)) (p : Position) :
    Except PyErr (List ℚ × List (String × List ℚ)) :=
  let times := data.map (fun b => b.time)
  let entry_value := p.entry_price * p.quantity
  match last_quantity_time times p with
  | .error e => .error e
  | .ok lastQ =>
    let cash1 := (data.zip acc.1).map (fun (bc : Bar × ℚ) =>
      if p.entry_time ≤ bc.1.time then bc.2 - entry_value else bc.2)
    match (match p.exit_time with
      | some xt =>
        match p.exit_price with
        | some xp => Except.ok ((data.zip cash1).map (fun (bc : Bar × ℚ) =>
            if xt ≤ bc.1.time then bc.2 + xp * p.quantity else bc.2))
        | none => Except.error PyErr.typeError
      | none => (Except.ok cash1 : Except PyErr (List ℚ))) with
    | .error e => .error e
    | .ok cash2 =>
      let value_series := data.map (fun b =>
        (if p.entry_time ≤ b.time ∧ b.time ≤ lastQ then p.quantity else 0)
          * b.Close)
      .ok (cash2, dict_insert acc.2 ("pos-" ++ p.id ++ "-value") value_series)

/-- The columns of the reconstructed per-bar table that
`Backtest._calculate_pnl` adds to the input data. -/
structure Pnl where
  cash_balance : List ℚ
  value_cols : List (String × List ℚ)
  equity : List PyF
  total_pnl : List PyF
  deriving DecidableEq, Repr

/-- The finite baseline that `_calculate_pnl` uses for the cash series and
the total-pnl offset: `starting_equity if starting_equity != inf else 0.0`. -/
def equity_base : XF → ℚ
  | .inf => 0
  | .fin q => q

/-- Sum of one row across all value columns (`pos_value_df.sum(axis=1)`). -/
def row_value_sum (cols : List (String × List ℚ)) (k : ℕ) : ℚ :=
  (cols.map (fun kv => kv.2.getD k 0)).sum

/-- `Backtest._calculate_pnl` as a function of the input table, the starting
equity and the final position ledger.  The equity column is
`cash_balance + pos_value_df.sum(axis=1)`: with at least one value column
every column carries the full data index, the row sums align with the cash
series and every entry is finite; with an empty ledger
`pd.DataFrame({})` has an *empty* index, its `sum(axis=1)` is an empty
Series, and the index-aligned addition leaves `NaN` on every bar, which the
scalar subtraction propagates into `total_pnl`. -/
def calculate_pnl (data : List Bar) (starting_equity : XF)
    (positions : List Position) : Except PyErr Pnl :=
  let base := equity_base starting_equity
  match positions.foldlM (process_position data)
      (data.map (fun _ => base), []) with
  | .error e => .error e
  | .ok (cash, cols) =>
    let equity : List PyF :=
      match cols with
      | [] => data.map (fun _ => PyF.nan)
      | _ :: _ => (List.range data.length).map (fun k =>
          PyF.fin (cash.getD k 0 + row_value_sum cols k))
    .ok { cash_balance := cash, value_cols := cols, equity := equity,
          total_pnl := equity.map (fun v => v.subQ base) }

/-- Values appearing in the statistics mapping.  Timestamps and counts are
naturals, bar-label differences are integers, exact float values are
rationals, IEEE special-value results are `PyF`, and the Sharpe-ratio entry
records the exact per-bar equity series from which Python computes
`mean(pct_change) / std(pct_change)` — the square root inside the standard
deviation has no exact rational representation, so the entry keeps the
exact data the float pipeline starts from. -/
inductive SVal where
  | nat (n : ℕ)
  | int (z : ℤ)
  | rat (q : ℚ)
  | pyf (f : PyF)
  | xf (x : XF)
  | sharpeData (equity : List PyF)
  deriving DecidableEq, Repr

/-- Maximum of a list, with `0` for the empty list (as in
`max(xs, default=0.0)`); on nonempty lists it is the plain maximum, as used
for nonempty pandas series. -/
def list_max : List ℚ → ℚ
  | [] => 0
  | x :: xs => xs.foldl max x

/-- Minimum of a list, with `0` for the empty list (as in
`min(xs, default=0.0)`). -/
def list_min : List ℚ → ℚ
  | [] => 0
  | x :: xs => xs.foldl min x

/-- The non-missing (non-`nan`) values of a float series, in order; pandas
reductions with the default `skipna=True` act on exactly these. -/
def pyf_dropna (l : List PyF) : List PyF :=
  l.filter (fun v => !(v == PyF.nan))

/-- `Series.max` with the default `skipna=True`: the maximum of the
non-missing values, `nan` when there are none. -/
def pyf_max (l : List PyF) : PyF :=
  match pyf_dropna l with
  | [] => PyF.nan
  | x :: xs => xs.foldl (fun a b => if PyF.le a b then b else a) x

/-- `Series.min` with the default `skipna=True`: the minimum of the
non-missing values, `nan` when there are none. -/
def pyf_min (l : List PyF) : PyF :=
  match pyf_dropna l with
  | [] => PyF.nan
  | x :: xs => xs.foldl (fun a b => if PyF.le b a then b else a) x

/-- `Series.cummax` with the default `skipna=True`, continuing from the
running maximum `m`: `nan` entries stay `nan` in the output and the running
maximum is carried past them. -/
def pyf_cummax_aux (m : Option PyF) : List PyF → List PyF
  | [] => []
  | PyF.nan :: xs => PyF.nan :: pyf_cummax_aux m xs
  | v :: xs =>
    let m2 := match m with
      | none => v
      | some a => if PyF.le a v then v else a
    m2 :: pyf_cummax_aux (some m2) xs

/-- `Series.cummax` with the default `skipna=True`. -/
def pyf_cummax (l : List PyF) : List PyF := pyf_cummax_aux none l

/-- One trade's realized (or mark-to-last-Close) pnl as computed in the
win/loss loop of `Backtest.stats`. -/
def trade_pnl (last_close : ℚ) (p : Position) : Except PyErr ℚ :=
  match p.exit_time with
  | some _ =>
    match p.exit_price with
    | some xp => .ok ((xp - p.entry_price) * p.quantity)
    | none => .error .typeError
  | none => .ok ((last_close - p.entry_price) * p.quantity)

/-- `Backtest.stats` as a function of the input table, the starting equity
and the final position ledger: the ordered mapping of summary metrics built
from the reconstructed pnl table.  Entries appear in source insertion
order; the three blocks guarded by `starting_equity != float("inf")` are
the buy-and-hold pair, the max-drawdown percentage, and the Sharpe ratio. -/
def stats (data : List Bar) (starting_equity : XF)
    (positions : List Position) : Except PyErr (List (String × SVal)) :=
  match calculate_pnl data starting_equity positions with
  | .error e => .error e
  | .ok tbl =>
    match data with
    | [] => .error .indexError
    | b0 :: rest =>
      let last_bar := (b0 :: rest).getLastD b0
      let last_close := ((b0 :: rest).map (fun b => b.Close)).getLastD 0
      let total_return := tbl.total_pnl.getLastD (PyF.fin 0)
      match mapExc (trade_pnl last_close) positions with
      | .error e => .error e
      | .ok pnls =>
        let wins := pnls.filter (fun q => decide (q > 0))
        let losses := pnls.filter (fun q => decide (q < 0))
        let durations := positions.map (fun p =>
          ((p.exit_time.getD last_bar.time : ℤ) - (p.entry_time : ℤ)))
        let exposure_time := ((List.range (b0 :: rest).length).filter
          (fun k => decide ((positions.map (fun p =>
            pyabs (((dict_get tbl.value_cols ("pos-" ++ p.id ++ "-value")).getD
              []).getD k 0))).sum ≠ 0))).length
        let dd := List.zipWith PyF.sub tbl.total_pnl
          (pyf_cummax tbl.total_pnl)
        let win_rate_q : ℚ := (wins.length : ℚ) / (positions.length : ℚ)
        let avg_win_q : ℚ :=
          if wins.isEmpty then 0 else wins.sum / (wins.length : ℚ)
        let avg_loss_q : ℚ :=
          if losses.isEmpty then 0 else losses.sum / (losses.length : ℚ)
        .ok (
          [("start", SVal.nat b0.time),
           ("end", SVal.nat last_bar.time),
           ("duration", SVal.int ((last_bar.time : ℤ) - (b0.time : ℤ))),
           ("starting_equity", SVal.xf starting_equity),
           ("peak_equity", SVal.pyf (pyf_max tbl.equity)),
           ("final_equity", SVal.pyf (tbl.equity.getLastD (PyF.fin 0))),
           ("total_return", SVal.pyf total_return),
           ("total_return_pct",
             SVal.pyf ((PyF.div total_return starting_equity.toPyF).mulQ
               100))]
          ++ (match starting_equity with
              | .inf => []
              | .fin e =>
                let asset_change := (PyF.pydiv last_close b0.Open).subQ 1
                [("buy_and_hold_return", SVal.pyf (asset_change.mulQ e)),
                 ("buy_and_hold_return_pct", SVal.pyf (asset_change.mulQ 100))])
          ++ [("exposure_time", SVal.nat exposure_time),
              ("exposure_time_pct", SVal.rat
                (((exposure_time : ℚ) / (((b0 :: rest).length : ℕ) : ℚ)) * 100)),
              ("max_drawdown", SVal.pyf (pyf_min dd))]
          ++ (match starting_equity with
              | .inf => []
              | .fin e =>
                [("max_drawdown_pct", SVal.pyf ((PyF.div (pyf_min dd)
                    (((pyf_cummax tbl.total_pnl).getLastD
                      (PyF.fin 0)).addQ e)).mulQ 100))])
          ++ (match starting_equity with
              | .inf => []
              | .fin _ => [("sharpe_ratio", SVal.sharpeData tbl.equity)])
          ++ [("num_trades", SVal.nat positions.length),
              ("win_rate", if positions.length = 0 then SVal.pyf PyF.nan
                else SVal.rat win_rate_q),
              ("avg_win", SVal.rat avg_win_q),
              ("avg_loss", SVal.rat avg_loss_q),
              ("best_trade", SVal.rat (list_max (wins ++ losses))),
              ("worst_trade", SVal.rat (list_min (wins ++ losses))),
              ("profit_factor", if losses.sum ≠ 0 then
                  SVal.rat (wins.sum / pyabs losses.sum)
                else SVal.pyf PyF.nan),
              ("expectancy", if positions.length = 0 then SVal.pyf PyF.nan
                else SVal.rat
                  (win_rate_q * avg_win_q + (1 - win_rate_q) * avg_loss_q)),
              ("max_position_duration", match durations with
                | [] => SVal.int 0
                | x :: xs => SVal.int (xs.foldl max x)),
              ("avg_position_duration", match durations with
                | [] => SVal.int 0
                | _ => SVal.rat ((durations.sum : ℚ) /
                    ((durations.length : ℕ) : ℚ)))])

end Backtest

/-!  Position ids are produced with Python's `f"{len(self.positions) + 1}"`,
embedded as `Nat.repr`.  The following section proves that decimal
representations of distinct naturals are distinct, which is what makes the
ledger's ids pairwise distinct. -/

/-- Most-significant-first decimal digit characters of a natural number. -/
def decDigits (n : ℕ) : List Char :=
  if _h : n < 10 then [Nat.digitChar n]
  else decDigits (n / 10) ++ [Nat.digitChar (n % 10)]
termination_by n
decreasing_by
  exact Nat.div_lt_self (by omega) (by omega)

theorem decDigits_of_lt {n : ℕ} (h : n < 10) :
    decDigits n = [Nat.digitChar n] := by
  rw [decDigits]
  simp [h]

theorem decDigits_of_ge {n : ℕ} (h : ¬ n < 10) :
    decDigits n = decDigits (n / 10) ++ [Nat.digitChar (n % 10)] := by
  conv_lhs => rw [decDigits]
  simp [h]

theorem decDigits_ne_nil (n : ℕ) : decDigits n ≠ [] := by
  by_cases h : n < 10
  · rw [decDigits_of_lt h]; simp
  · rw [decDigits_of_ge h]; simp

theorem toDigitsCore_eq_decDigits (n : ℕ) : ∀ (f : ℕ) (acc : List Char),
    n < f → Nat.toDigitsCore 10 f n acc = decDigits n ++ acc := by
  induction n using Nat.strong_induction_on with
  | _ n ih =>
    intro f acc hf
    match f with
    | 0 => omega
    | f + 1 =>
      show (if n / 10 = 0 then Nat.digitChar (n % 10) :: acc
        else Nat.toDigitsCore 10 f (n / 10) (Nat.digitChar (n % 10) :: acc))
          = decDigits n ++ acc
      by_cases h0 : n / 10 = 0
      · have hlt : n < 10 := by omega
        rw [if_pos h0, decDigits_of_lt hlt, Nat.mod_eq_of_lt hlt]
        rfl
      · have hge : ¬ n < 10 := by
          intro hc
          exact h0 (Nat.div_eq_of_lt hc)
        have hdivlt : n / 10 < n := Nat.div_lt_self (by omega) (by omega)
        rw [if_neg h0, ih (n / 10) hdivlt f _ (by omega),
          decDigits_of_ge hge, List.append_assoc]
        rfl

theorem digitChar_inj_below_ten : ∀ a, a < 10 → ∀ b, b < 10 →
    Nat.digitChar a = Nat.digitChar b → a = b := by decide

theorem decDigits_inj : ∀ m n : ℕ, decDigits m = decDigits n → m = n := by
  intro m
  induction m using Nat.strong_induction_on with
  | _ m ih =>
    intro n hmn
    by_cases hm : m < 10 <;> by_cases hn : n < 10
    · rw [decDigits_of_lt hm, decDigits_of_lt hn] at hmn
      exact digitChar_inj_below_ten m hm n hn (by injection hmn)
    · rw [decDigits_of_lt hm, decDigits_of_ge hn] at hmn
      have : (1 : ℕ) = (decDigits (n / 10)).length + 1 := by
        have := congrArg List.length hmn
        simpa using this
      have hne := decDigits_ne_nil (n / 10)
      cases hd : decDigits (n / 10) with
      | nil => exact absurd hd hne
      | cons c cs => rw [hd] at this; simp at this
    · rw [decDigits_of_ge hm, decDigits_of_lt hn] at hmn
      have : (decDigits (m / 10)).length + 1 = (1 : ℕ) := by
        have := congrArg List.length hmn
        simpa using this
      have hne := decDigits_ne_nil (m / 10)
      cases hd : decDigits (m / 10) with
      | nil => exact absurd hd hne
      | cons c cs => rw [hd] at this; simp at this
    · rw [decDigits_of_ge hm, decDigits_of_ge hn] at hmn
      have hparts := List.append_inj' hmn (by simp)
      have hdiv : m / 10 = n / 10 :=
        ih (m / 10) (Nat.div_lt_self (by omega) (by omega)) (n / 10) hparts.1
      have hmod : m % 10 = n % 10 := by
        have := hparts.2
        exact digitChar_inj_below_ten (m % 10) (Nat.mod_lt m (by omega))
          (n % 10) (Nat.mod_lt n (by omega)) (by injection this)
      omega

theorem Nat_repr_eq_decDigits (n : ℕ) :
    Nat.repr n = (decDigits n).asString := by
  show (Nat.toDigits 10 n).asString = (decDigits n).asString
  rw [Nat.toDigits, toDigitsCore_eq_decDigits n (n + 1) [] (by omega),
    List.append_nil]

theorem NatRepr_inj {m n : ℕ} (h : Nat.repr m = Nat.repr n) : m = n := by
  rw [Nat_repr_eq_decDigits, Nat_repr_eq_decDigits] at h
  apply decDigits_inj
  have : (decDigits m).asString.data = (decDigits n).asString.data :=
    congrArg String.data h
  simpa [List.asString] using this

/-! Generic helper lemmas. -/

theorem filter_partition_length (p : α → Bool) (l : List α) :
    (l.filter p).length + (l.filter (fun a => !p a)).length = l.length := by
  induction l with
  | nil => rfl
  | cons a l ih =>
    by_cases h : p a <;> simp [List.filter_cons, h] <;> omega

namespace Backtest

/-! Facts about the validation loop of `Backtest.run`. -/

theorem validate_orders_eq_none {orders : List Order}
    (h : validate_orders orders = none) :
    ∀ o ∈ orders, validate_order o = none := by
  induction orders with
  | nil => intro o ho; cases ho
  | cons a l ih =>
    intro o ho
    unfold validate_orders at h
    cases ha : validate_order a with
    | some e => rw [ha] at h; cases h
    | none =>
      rw [ha] at h
      cases ho with
      | head => exact ha
      | tail _ hl => exact ih h o hl

theorem validate_orders_mem {orders : List Order} {e : PyErr}
    (h : validate_orders orders = some e) :
    ∃ o ∈ orders, validate_order o = some e := by
  induction orders with
  | nil => cases h
  | cons a l ih =>
    unfold validate_orders at h
    cases ha : validate_order a with
    | some e2 =>
      rw [ha] at h
      exact ⟨a, List.mem_cons_self a l, by rw [ha, ← h]⟩
    | none =>
      rw [ha] at h
      obtain ⟨o, ho, hvo⟩ := ih h
      exact ⟨o, List.mem_cons_of_mem a ho, hvo⟩

theorem validate_order_shape {o : Order} {e : PyErr}
    (h : validate_order o = some e) :
    e = .valueError .provideExactlyOne ∨ e = .valueError .invalidAction ∨
      e = .valueError .positionIdRequired := by
  unfold validate_order at h
  split at h
  · injection h with h1
    exact Or.inl h1.symm
  · split at h
    · injection h with h1
      exact Or.inr (Or.inl h1.symm)
    · split at h
      · injection h with h1
        exact Or.inr (Or.inr h1.symm)
      · cases h

theorem invalid_order_not_none {o : Order}
    (h : (o.action = "enter" ∧ (o.quantity = none ↔ o.value = none)) ∨
      (o.action ≠ "enter" ∧ o.action ≠ "exit") ∨
      (o.action = "exit" ∧ o.position_id = none)) :
    validate_order o ≠ none := by
  unfold validate_order
  rcases h with ⟨ha, hqv⟩ | ⟨ha1, ha2⟩ | ⟨ha, hpid⟩
  · have : (o.action == "enter" && (o.quantity.isNone == o.value.isNone)) = true := by
      rw [ha]
      simp only [beq_self_eq_true, Bool.true_and]
      cases hq : o.quantity <;> cases hv : o.value <;> simp_all
    rw [if_pos this]
    simp
  · have h1 : (o.action == "enter" && (o.quantity.isNone == o.value.isNone)) = false := by
      have : (o.action == "enter") = false := by simpa using ha1
      simp [this]
    have h2 : (!(o.action == "enter" || o.action == "exit")) = true := by
      have e1 : (o.action == "enter") = false := by simpa using ha1
      have e2 : (o.action == "exit") = false := by simpa using ha2
      simp [e1, e2]
    rw [if_neg (by simp [h1]), if_pos h2]
    simp
  · have hne : o.action ≠ "enter" := by rw [ha]; decide
    have h1 : (o.action == "enter" && (o.quantity.isNone == o.value.isNone)) = false := by
      have : (o.action == "enter") = false := by simpa using hne
      simp [this]
    have h2 : (!(o.action == "enter" || o.action == "exit")) = false := by
      have e2 : (o.action == "exit") = true := by simpa using ha
      simp [e2]
    have h3 : (o.action == "exit" && o.position_id.isNone) = true := by
      have e2 : (o.action == "exit") = true := by simpa using ha
      simp [e2, hpid]
    rw [if_neg (by simp [h1]), if_neg (by simp [h2]), if_pos h3]
    simp

end Backtest

namespace Backtest

/-! Characterization of the stable exit-before-enter sort. -/

theorem exit_key_cases (o : Order) : exit_key o = 0 ∨ exit_key o = 1 := by
  unfold exit_key
  split
  · exact Or.inl rfl
  · exact Or.inr rfl

theorem ins_after_nonexit_list (o : Order) : ∀ (nx : List Order),
    (∀ a ∈ nx, exit_key a = 1) →
    ins_after exit_key o nx =
      if exit_key o = 0 then o :: nx else nx ++ [o] := by
  intro nx
  induction nx with
  | nil =>
    intro _
    rcases exit_key_cases o with ho | ho <;> simp [ins_after, ho]
  | cons b bs ih =>
    intro hnx
    have hb : exit_key b = 1 := hnx b (List.mem_cons_self b bs)
    have ih2 := ih (fun a ha => hnx a (List.mem_cons_of_mem b ha))
    rcases exit_key_cases o with ho | ho
    · simp [ins_after, hb, ho]
    · simp only [ho] at ih2
      simp [ins_after, hb, ho, ih2]

theorem ins_after_split (o : Order) :
    ∀ (ex nx : List Order), (∀ a ∈ ex, exit_key a = 0) →
    (∀ a ∈ nx, exit_key a = 1) →
    ins_after exit_key o (ex ++ nx) =
      if exit_key o = 0 then ex ++ o :: nx else (ex ++ nx) ++ [o] := by
  intro ex
  induction ex with
  | nil =>
    intro nx _ hnx
    have h := ins_after_nonexit_list o nx hnx
    rcases exit_key_cases o with ho | ho <;> simpa [ho] using h
  | cons a ex iha =>
    intro nx hex hnx
    have ha : exit_key a = 0 := hex a (List.mem_cons_self a ex)
    have hrec := iha nx (fun x hx => hex x (List.mem_cons_of_mem a hx)) hnx
    rcases exit_key_cases o with ho | ho <;>
      simp [ins_after, ha, ho, hrec]

theorem py_sorted_aux : ∀ (l ex nx : List Order),
    (∀ a ∈ ex, exit_key a = 0) → (∀ a ∈ nx, exit_key a = 1) →
    List.foldl (fun acc o => ins_after exit_key o acc) (ex ++ nx) l =
      (ex ++ l.filter (fun o => o.action == "exit")) ++
        (nx ++ l.filter (fun o => !(o.action == "exit"))) := by
  intro l
  induction l with
  | nil =>
    intro ex nx _ _
    simp
  | cons o l ih =>
    intro ex nx hex hnx
    show List.foldl _ (ins_after exit_key o (ex ++ nx)) l = _
    rw [ins_after_split o ex nx hex hnx]
    by_cases ho : (o.action == "exit") = true
    · have hk : exit_key o = 0 := by unfold exit_key; rw [if_pos ho]
      rw [if_pos hk]
      have hsh : ex ++ o :: nx = (ex ++ [o]) ++ nx := by simp
      rw [hsh, ih (ex ++ [o]) nx (by
        intro a ha
        rcases List.mem_append.mp ha with h | h
        · exact hex a h
        · rw [List.mem_singleton.mp h]; exact hk) hnx]
      simp [List.filter_cons, ho]
    · have hk : exit_key o = 1 := by unfold exit_key; rw [if_neg ho]
      rw [if_neg (by rw [hk]; decide)]
      have hsh : (ex ++ nx) ++ [o] = ex ++ (nx ++ [o]) := by simp
      rw [hsh, ih ex (nx ++ [o]) hex (by
        intro a ha
        rcases List.mem_append.mp ha with h | h
        · exact hnx a h
        · rw [List.mem_singleton.mp h]; exact hk)]
      simp [List.filter_cons, ho]

theorem py_sorted_exit_split (l : List Order) :
    py_sorted_stable exit_key l =
      l.filter (fun o => o.action == "exit") ++
        l.filter (fun o => !(o.action == "exit")) := by
  have h := py_sorted_aux l [] [] (by intro a ha; cases ha)
    (by intro a ha; cases ha)
  simpa using h

/-! Concrete fixtures used by the claims below. -/

/-- A limit order (price set). -/
def fix_limit_order : Order := { action := "enter", quantity := some 2, price := some 10 }

/-- A market order (no price). -/
def fix_market_order : Order := { action := "enter", quantity := some 3 }

def c2_short : Position := { id := "1", entry_time := 0, entry_price := 10, quantity := -1 }

def c2_state : BState :=
  { cash_balance := .fin 100, positions := [c2_short], open_orders := [] }

def c2_bar : Bar := { time := 1, Open := 10, High := 12, Low := 9, Close := 11, Volume := 60 }

def c3_first : Order := { action := "enter", quantity := some 1, price := some 10 }

def c3_second : Order := { action := "enter", quantity := some 1, price := some 11 }

def c3_state : BState :=
  { cash_balance := .inf, positions := [], open_orders := [c3_first, c3_second] }

def c3_bar : Bar := { time := 5, Open := 7, High := 8, Low := 5, Close := 6, Volume := 0 }

def c3_new_position : Position :=
  { id := "1", entry_time := 5, entry_price := 10, quantity := 1 }

def c4_pos : Position := { id := "1", entry_time := 0, entry_price := 10, quantity := 1 }

def c4_state : BState :=
  { cash_balance := .fin 50, positions := [c4_pos], open_orders := [] }

def c4_bar : Bar := { time := 2, Open := 9, High := 10, Low := 8, Close := 9, Volume := 10 }

def c4_exit : Order := { action := "exit", position_id := some "2" }

def c7_state : BState := { cash_balance := .fin 10, positions := [], open_orders := [] }

def c7_bar : Bar := { time := 1, Open := 1, High := 1, Low := 1, Close := 1, Volume := 1 }

def c7_bad : Order := { action := "enter", quantity := some 1, value := some 5 }

def c9_data : List Bar :=
  [{ time := 0, Open := 10, High := 12, Low := 9, Close := 11, Volume := 100 },
   { time := 1, Open := 11, High := 13, Low := 10, Close := 12, Volume := 100 }]

/-! The claims. -/

/-- Claim C1: in every step, each order returned by the strategy is
partitioned into exactly one of two classes — limit orders (price set) and
market orders (price unset) — and the partition (the two `filter`s on
`is_limit` in `Backtest.run`) succeeds for every well-formed `Order`: the
two classes cover the order list and an order lands in the limit class iff
its price is set, in the market class iff its price is unset, never both. -/
theorem claim_c1 (orders : List Order) :
    ((orders.filter (fun o => o.is_limit)).length +
      (orders.filter (fun o => !o.is_limit)).length = orders.length) ∧
    ∀ o ∈ orders,
      (o ∈ orders.filter (fun o => o.is_limit) ↔ o.price.isSome = true) ∧
      (o ∈ orders.filter (fun o => !o.is_limit) ↔ o.price = none) ∧
      ¬(o.price.isSome = true ∧ o.price = none) := by
  refine ⟨filter_partition_length _ _, ?_⟩
  intro o ho
  refine ⟨?_, ?_, ?_⟩
  · simp [List.mem_filter, ho, Order.is_limit]
  · cases hp : o.price <;> simp [List.mem_filter, ho, Order.is_limit, hp]
  · rintro ⟨h1, h2⟩
    rw [h2] at h1
    cases h1

/-- Witness for C1 at a concrete two-order list. -/
theorem claim_c1_witness :
    (fix_limit_order ∈
        [fix_limit_order, fix_market_order].filter (fun o => o.is_limit) ↔
      fix_limit_order.price.isSome = true) ∧
    (fix_limit_order ∈
        [fix_limit_order, fix_market_order].filter (fun o => !o.is_limit) ↔
      fix_limit_order.price = none) ∧
    ¬(fix_limit_order.price.isSome = true ∧ fix_limit_order.price = none) :=
  (claim_c1 [fix_limit_order, fix_market_order]).2 fix_limit_order (by decide)

/-- Claim C2 is refuted by the code: at the start of a step the engine calls
`_calculate_buying_power(next_data)` with the whole next-bar row, so each
open short position is marked at `Open + High + Low + Close + Volume`, not
at the next bar's Open.  Here: cash `100`, one open short of quantity `-1`,
next bar `(Open, High, Low, Close, Volume) = (10, 12, 9, 11, 60)`.  The
engine computes buying power `100 - 102 = -2` and aborts with the
insolvency `ValueError`, while the buying power the claim describes —
the same `_calculate_buying_power` applied to the next Open — is `90 ≥ 0`,
so the claimed check would not fire. -/
theorem claim_c2_code_eval :
    run_step c2_state c2_bar [] =
      .error (.valueError .negativeBuyingPower, c2_state) ∧
    calculate_buying_power c2_state c2_bar.Open = .ok (.fin 90) ∧
    (XF.fin 90).ltZero = false := by decide

/-- Claim C3 is refuted by the code: `_fulfill_limit_orders` removes
fulfilled orders from `self.open_orders` while iterating over that same
list, so the entry that slides into the freed slot is skipped.  Here the
book holds two eligible limit buy orders (prices 10 and 11, next Low 5):
the step fulfills only the first and leaves the second — still eligible,
as witnessed by its fill condition evaluating to `ok true` both against
the ledger before and after the step — resting in the book. -/
theorem claim_c3_code_eval :
    run_step c3_state c3_bar [] = .ok
      { cash_balance := .inf, positions := [c3_new_position],
        open_orders := [c3_second] } ∧
    is_limit_order_condition_met [c3_new_position] c3_second c3_bar =
      .ok true ∧
    is_limit_order_condition_met [] c3_second c3_bar = .ok true := by decide

/-- Counterexample to claim C4: a market Exit order whose `position_id`
matches no open position is silently ignored, not fatal.  The whole step
returns successfully with the cash balance, ledger and book unchanged, and
`_fulfill_order` itself returns with the state untouched. -/
theorem claim_c4_counterexample :
    run_step c4_state c4_bar [c4_exit] = .ok c4_state ∧
    fulfill_order c4_state c4_exit c4_bar.Open c4_bar.time true =
      .ok (c4_state, c4_exit) := by decide

/-- Claim C5: within a step, all market Exit orders are fulfilled before
any market Enter order, and among orders of the same action the strategy's
return order is preserved: the stable sort on the 0/1 exit key is exactly
the exit sublist (in original order) followed by the non-exit sublist (in
original order), and `_fulfill_market_orders` processes orders in exactly
that sequence, so capital freed by an exit is available to the buying-power
check of a later enter in the same step. -/
theorem claim_c5 (st : BState) (next_data : Bar) (orders : List Order) :
    py_sorted_stable exit_key orders =
      orders.filter (fun o => o.action == "exit") ++
        orders.filter (fun o => !(o.action == "exit")) ∧
    fulfill_market_orders st orders next_data =
      fulfill_orders_seq st next_data
        (orders.filter (fun o => o.action == "exit") ++
          orders.filter (fun o => !(o.action == "exit"))) := by
  have h := py_sorted_exit_split orders
  exact ⟨h, by unfold fulfill_market_orders; rw [h]⟩

/-- Claim C7: if the strategy returns a malformed order (Enter with both or
neither of quantity and value, unknown action, or Exit without a
position id) in a step whose buying-power precheck passed, then the step
raises a validation `ValueError` and aborts with the engine state exactly
as it was — no cash, ledger or book mutation happens in that step. -/
theorem claim_c7 (st : BState) (next_data : Bar) (orders : List Order)
    (bp : XF) (o : Order)
    (hbp : calculate_buying_power_row st next_data = .ok bp)
    (hneg : bp.ltZero = false)
    (ho : o ∈ orders)
    (hbad : (o.action = "enter" ∧ (o.quantity = none ↔ o.value = none)) ∨
      (o.action ≠ "enter" ∧ o.action ≠ "exit") ∨
      (o.action = "exit" ∧ o.position_id = none)) :
    ∃ v : VErr, run_step st next_data orders = .error (.valueError v, st) ∧
      (v = .provideExactlyOne ∨ v = .invalidAction ∨
        v = .positionIdRequired) := by
  have h1 : validate_order o ≠ none := invalid_order_not_none hbad
  have h2 : validate_orders orders ≠ none := by
    intro hn
    exact h1 (validate_orders_eq_none hn o ho)
  obtain ⟨e, he⟩ : ∃ e, validate_orders orders = some e := by
    cases hv : validate_orders orders with
    | none => exact absurd hv h2
    | some e => exact ⟨e, rfl⟩
  obtain ⟨o2, _, ho2⟩ := validate_orders_mem he
  have hrun : run_step st next_data orders = .error (e, st) := by
    unfold run_step
    rw [hbp]
    dsimp only
    rw [hneg]
    simp only [Bool.false_eq_true, if_false]
    rw [he]
  rcases validate_order_shape ho2 with h | h | h <;> subst h
  · exact ⟨_, hrun, Or.inl rfl⟩
  · exact ⟨_, hrun, Or.inr (Or.inl rfl)⟩
  · exact ⟨_, hrun, Or.inr (Or.inr rfl)⟩

/-- Witness for C7: an Enter order with both `quantity` and `value` set
aborts the step with the validation error and an unchanged state. -/
theorem claim_c7_witness :
    ∃ v : VErr, run_step c7_state c7_bar [c7_bad] =
      .error (.valueError v, c7_state) ∧
      (v = .provideExactlyOne ∨ v = .invalidAction ∨
        v = .positionIdRequired) :=
  claim_c7 c7_state c7_bar [c7_bad] (.fin 10) c7_bad (by decide) (by decide)
    (by decide) (by decide)

/-- Counterexample to claim C9: with unconstrained (infinite) starting
equity the statistics mapping still reports the percentage form of total
return — the key `total_return_pct` is present, contradicting that the
percentage form is reported only for finite starting equity.  (On this
zero-trade run its value is `nan`, because the empty position-value frame
aligns the equity and total-pnl series to `NaN`; the keys really guarded
by finiteness are the buy-and-hold pair, `max_drawdown_pct` and
`sharpe_ratio`, all absent here.) -/
theorem claim_c9_counterexample :
    (stats c9_data XF.inf []).map (List.map Prod.fst) = .ok
      ["start", "end", "duration", "starting_equity", "peak_equity",
       "final_equity", "total_return", "total_return_pct", "exposure_time",
       "exposure_time_pct", "max_drawdown", "num_trades", "win_rate",
       "avg_win", "avg_loss", "best_trade", "worst_trade", "profit_factor",
       "expectancy", "max_position_duration", "avg_position_duration"] ∧
    ("total_return_pct", SVal.pyf PyF.nan) ∈
      ((stats c9_data XF.inf []).toOption.getD []) := by decide

end Backtest

namespace Backtest

theorem close_first_open_eq_none {pid : Option String} {price : ℚ} {t : ℕ} :
    ∀ (ps : List Position), (∀ p ∈ ps, p.is_open = true → some p.id ≠ pid) →
    close_first_open ps pid price t = none := by
  intro ps
  induction ps with
  | nil => intro _; rfl
  | cons p rest ih =>
    intro h
    unfold close_first_open
    have hp : (p.is_open && (some p.id == pid)) = false := by
      cases hop : p.is_open
      · simp
      · have hne := h p (List.mem_cons_self p rest) hop
        simp [hne]
    rw [if_neg (by simp [hp]), ih (fun q hq => h q (List.mem_cons_of_mem p hq))]

/-- A fresh limit Exit order whose id matches nothing, used as witness. -/
def c4_limit_exit : Order :=
  { action := "exit", price := some 5, position_id := some "9" }

/-- Claim C4, amended: an Exit order whose `position_id` matches no open
position is NOT uniformly fatal.  The direction lookup of `_is_buy_order`
(reached only on the limit path) raises `StopIteration` when no position in
the ledger matches; but `_fulfill_order` itself — the market path — walks
the open positions, finds no match, and silently returns with the cash
balance and ledger unchanged. -/
theorem claim_c4_amended :
    (∀ (positions : List Position) (o : Order),
      o.action = "exit" →
      (∀ p ∈ positions, some p.id ≠ o.position_id) →
      is_buy_order positions o = .error .stopIteration) ∧
    (∀ (st : BState) (o : Order) (price : ℚ) (t : ℕ) (chk : Bool),
      o.action = "exit" →
      (∀ p ∈ st.positions, p.is_open = true → some p.id ≠ o.position_id) →
      fulfill_order st o price t chk = .ok (st, o)) := by
  constructor
  · intro positions o ha hnone
    unfold is_buy_order
    rw [if_pos ha]
    have hfind : positions.find? (fun p => some p.id == o.position_id) = none := by
      rw [List.find?_eq_none]
      intro p hp
      simpa using hnone p hp
    rw [hfind]
  · intro st o price t chk ha hnone
    unfold fulfill_order
    rw [if_pos ha, close_first_open_eq_none st.positions hnone]

/-- Witness for the amended C4: the limit-path direction lookup raises and
the market-path fulfillment silently no-ops, at concrete states. -/
theorem claim_c4_witness :
    is_buy_order [c4_pos] c4_limit_exit = .error .stopIteration ∧
    fulfill_order c4_state c4_exit 7 4 false = .ok (c4_state, c4_exit) :=
  ⟨claim_c4_amended.1 [c4_pos] c4_limit_exit rfl (by decide),
   claim_c4_amended.2 c4_state c4_exit 7 4 false rfl (by decide)⟩

end Backtest

namespace Backtest

theorem mem_set_of_getElem_ne {α : Type} {l : List α} {a b : α} {i : ℕ}
    (ha : a ∈ l) (hne : l[i]? ≠ some a) : a ∈ l.set i b := by
  obtain ⟨j, hj, hja⟩ := List.getElem_of_mem ha
  have hij : i ≠ j := by
    rintro rfl
    exact hne (by rw [List.getElem?_eq_getElem hj, hja])
  have hj2 : j < (l.set i b).length := by simpa using hj
  have h2 : (l.set i b)[j] = l[j] := List.getElem_set_ne hij _
  rw [← hja, ← h2]
  exact List.getElem_mem _

theorem fulfill_order_snd {st : BState} {o : Order} {price : ℚ} {t : ℕ}
    {chk : Bool} {st1 : BState} {o2 : Order}
    (h : fulfill_order st o price t chk = .ok (st1, o2)) :
    o2 = o ∨ (o2.quantity.isSome = true ∧ o2.value.isSome = true) := by
  unfold fulfill_order at h
  repeat' first
    | split at h
    | dsimp only at h
  all_goals first
    | exact Except.noConfusion h
    | (injection h with h1; injection h1 with h2 h3; subst h3;
       first
         | exact Or.inl rfl
         | (right; constructor <;> simp_all))

theorem cond_of_components {positions : List Position} {o : Order}
    {b : Bool} {p : ℚ} (bar : Bar)
    (hb : is_buy_order positions o = .ok b) (hp : o.price = some p) :
    is_limit_order_condition_met positions o bar =
      .ok (if b then decide (bar.Low ≤ p) else decide (bar.High ≥ p)) := by
  unfold is_limit_order_condition_met
  rw [hb, hp]

theorem fulfill_limit_go_mem {next : Bar} {o : Order}
    (hqv : o.quantity = none ∨ o.value = none)
    (hcond : ∀ ps : List Position,
      is_limit_order_condition_met ps o next = .ok false) :
    ∀ (fuel : ℕ) (st : BState) (i : ℕ) (st' : BState),
      fulfill_limit_go next fuel st i = .ok st' →
      o ∈ st.open_orders → o ∈ st'.open_orders := by
  intro fuel
  induction fuel with
  | zero =>
    intro st i st' h hm
    injection h with h1
    rw [← h1]
    exact hm
  | succ fuel ih =>
    intro st i st' h hm
    unfold fulfill_limit_go at h
    split at h
    · rename_i hlen
      dsimp only at h
      split at h
      · exact Except.noConfusion h
      · exact Except.noConfusion h
      · rename_i b p hb hp
        by_cases hgd : (if b = true then decide (next.Low ≤ p)
            else decide (next.High ≥ p)) = true
        · rw [if_pos hgd] at h
          split at h
          · exact Except.noConfusion h
          · rename_i st1 o2 hf
            have hctrue : is_limit_order_condition_met st.positions
                st.open_orders[i] next = .ok true := by
              rw [cond_of_components next hb hp]
              exact congrArg Except.ok hgd
            have hne : st.open_orders[i] ≠ o := by
              intro he
              rw [he, hcond st.positions] at hctrue
              simp at hctrue
            have ho2 : o2 ≠ o := by
              rcases fulfill_order_snd hf with h2 | ⟨hq, hv⟩
              · rw [h2]; exact hne
              · intro he2
                rcases hqv with h0 | h0
                · rw [he2, h0] at hq; cases hq
                · rw [he2, h0] at hv; cases hv
            have hoo : st1.open_orders = st.open_orders :=
              fulfill_order_open_orders_eq hf
            apply ih _ _ _ h
            apply (List.mem_erase_of_ne (Ne.symm ho2)).mpr
            apply mem_set_of_getElem_ne
            · rw [hoo]; exact hm
            · rw [hoo, List.getElem?_eq_getElem hlen]
              intro hcontra
              injection hcontra with hcontra2
              exact hne hcontra2
        · rw [if_neg hgd] at h
          exact ih _ _ _ h hm
    · injection h with h1
      rw [← h1]
      exact hm

theorem fulfill_orders_seq_open_orders {next : Bar} :
    ∀ (os : List Order) (st st' : BState),
      fulfill_orders_seq st next os = .ok st' →
      st'.open_orders = st.open_orders := by
  intro os
  induction os with
  | nil =>
    intro st st' h
    injection h with h1
    rw [← h1]
  | cons o rest ih =>
    intro st st' h
    unfold fulfill_orders_seq at h
    split at h
    · exact Except.noConfusion h
    · rename_i st1 o2 hf
      rw [ih st1 st' h, fulfill_order_open_orders_eq hf]

theorem run_step_mem {o : Order} {st st' : BState} {bar : Bar}
    {orders : List Order}
    (hqv : o.quantity = none ∨ o.value = none)
    (hcond : ∀ ps, is_limit_order_condition_met ps o bar = .ok false)
    (h : run_step st bar orders = .ok st')
    (hm : o ∈ st.open_orders) : o ∈ st'.open_orders := by
  unfold run_step at h
  split at h
  · exact Except.noConfusion h
  · split at h
    · exact Except.noConfusion h
    · split at h
      · exact Except.noConfusion h
      · dsimp only at h
        split at h
        · exact Except.noConfusion h
        · rename_i st2 hmkt
          unfold fulfill_market_orders at hmkt
          have h2 : st2.open_orders = st.open_orders ++
              orders.filter (fun o => o.is_limit) := by
            rw [fulfill_orders_seq_open_orders _ _ _ hmkt]
            rfl
          have hmem2 : o ∈ st2.open_orders := by
            rw [h2]
            exact List.mem_append_left _ hm
          exact fulfill_limit_go_mem hqv hcond _ _ _ _ h hmem2

theorem run_steps_mem {o : Order}
    (hqv : o.quantity = none ∨ o.value = none) :
    ∀ (steps : List (Bar × List Order)) (st st' : BState),
      (∀ (ps : List Position) (bar : Bar), bar ∈ steps.map Prod.fst →
        is_limit_order_condition_met ps o bar = .ok false) →
      run_steps st steps = .ok st' →
      o ∈ st.open_orders → o ∈ st'.open_orders := by
  intro steps
  induction steps with
  | nil =>
    intro st st' _ h hm
    injection h with h1
    rw [← h1]
    exact hm
  | cons sb rest ih =>
    intro st st' hcond h hm
    unfold run_steps at h
    split at h
    · exact Except.noConfusion h
    · rename_i st1 hstep
      have h1 : o ∈ st1.open_orders :=
        run_step_mem hqv
          (fun ps => hcond ps _ (List.mem_cons_self _ _)) hstep hm
      exact ih st1 st'
        (fun ps bar hb => hcond ps bar (List.mem_cons_of_mem _ hb)) h h1

end Backtest

namespace Backtest

/-- A resting limit buy order whose trigger price 0 is never reached. -/
def c6_never : Order := { action := "enter", quantity := some 1, price := some 0 }

def c6_state : BState :=
  { cash_balance := .inf, positions := [], open_orders := [c6_never] }

def c6_bar : Bar := { time := 3, Open := 6, High := 7, Low := 5, Close := 6, Volume := 0 }

/-- Claim C6: the limit fill condition and its direction derivation.
(1) The fill decision for an order under consideration is exactly: for a
buy-direction order, next Low ≤ limit price; for a sell-direction order,
next High ≥ limit price.  Direction is derived, not stored: (2) for an Exit
order it is the opposite of the referenced position's quantity sign (buy
iff the position is short); for an Enter order it is the sign of
(3) `quantity` when set and nonzero, else (4) `value`.  (5) An order whose
condition is not met by a step's next bar survives `_fulfill_limit_orders`
for that step, and (6) an order whose condition is never met over a whole
run remains in the open order book at the end of the run. -/
theorem claim_c6 :
    (∀ (positions : List Position) (o : Order) (p : ℚ) (b : Bool) (bar : Bar),
      is_buy_order positions o = .ok b → o.price = some p →
      is_limit_order_condition_met positions o bar =
        .ok (if b then decide (bar.Low ≤ p) else decide (bar.High ≥ p))) ∧
    (∀ (positions : List Position) (o : Order) (pos : Position),
      o.action = "exit" →
      positions.find? (fun q => some q.id == o.position_id) = some pos →
      is_buy_order positions o = .ok (decide (pos.quantity < 0))) ∧
    (∀ (positions : List Position) (o : Order) (q : ℚ),
      o.action ≠ "exit" → o.quantity = some q → q ≠ 0 →
      is_buy_order positions o = .ok (decide (q > 0))) ∧
    (∀ (positions : List Position) (o : Order) (v : ℚ),
      o.action ≠ "exit" → o.quantity = none → o.value = some v →
      is_buy_order positions o = .ok (decide (v > 0))) ∧
    (∀ (next : Bar) (o : Order) (st st' : BState),
      (o.quantity = none ∨ o.value = none) →
      (∀ ps, is_limit_order_condition_met ps o next = .ok false) →
      fulfill_limit_orders st next = .ok st' →
      o ∈ st.open_orders → o ∈ st'.open_orders) ∧
    (∀ (steps : List (Bar × List Order)) (o : Order) (st st' : BState),
      (o.quantity = none ∨ o.value = none) →
      (∀ (ps : List Position) (bar : Bar), bar ∈ steps.map Prod.fst →
        is_limit_order_condition_met ps o bar = .ok false) →
      run_steps st steps = .ok st' →
      o ∈ st.open_orders → o ∈ st'.open_orders) := by
  refine ⟨?_, ?_, ?_, ?_, ?_, ?_⟩
  · intro positions o p b bar hb hp
    exact cond_of_components bar hb hp
  · intro positions o pos ha hfind
    unfold is_buy_order
    rw [if_pos ha, hfind]
  · intro positions o q ha hq hqne
    unfold is_buy_order
    rw [if_neg ha, hq]
    dsimp only
    rw [if_pos hqne]
  · intro positions o v ha hq hv
    unfold is_buy_order
    rw [if_neg ha, hq, hv]
  · intro next o st st' hqv hcond hrun hm
    exact fulfill_limit_go_mem hqv hcond _ _ _ _ hrun hm
  · intro steps o st st' hqv hcond hrun hm
    exact run_steps_mem hqv steps st st' hcond hrun hm

/-- Witness for C6: the fill condition of a concrete limit buy evaluates to
the claimed comparison, and a concrete resting order whose trigger is never
reached survives a whole (one-step) run in the book. -/
theorem claim_c6_witness :
    is_limit_order_condition_met [] fix_limit_order c3_bar =
      .ok (if true then decide (c3_bar.Low ≤ 10)
        else decide (c3_bar.High ≥ 10)) ∧
    c6_never ∈ c6_state.open_orders := by
  constructor
  · exact claim_c6.1 [] fix_limit_order 10 true c3_bar (by decide) rfl
  · exact claim_c6.2.2.2.2.2 [(c6_bar, [])] c6_never c6_state c6_state
      (Or.inr rfl)
      (fun ps bar hbar => by
        have hb : bar = c6_bar := by simpa using hbar
        subst hb
        rfl)
      (by decide) (by decide)

end Backtest

namespace Backtest

/-- The ledger's ids, in ledger order. -/
@[reducible] def ids_of (st : BState) : List String :=
  st.positions.map (fun p => p.id)

/-- The id invariant of the position ledger: its ids are exactly the
decimal strings "1", "2", ... in creation order. -/
@[reducible] def ledger_ids_inv (st : BState) : Prop :=
  ids_of st = (List.range st.positions.length).map (fun k => Nat.repr (k + 1))

/-- The ledger of `b` extends the ledger of `a`: positions are never
removed, only appended. -/
def ids_extends (a b : BState) : Prop :=
  ∃ tl, ids_of b = ids_of a ++ tl

theorem ids_extends_refl (a : BState) : ids_extends a a := ⟨[], by simp⟩

theorem ids_extends_trans {a b c : BState} :
    ids_extends a b → ids_extends b c → ids_extends a c :=
  fun ⟨t1, h1⟩ ⟨t2, h2⟩ => ⟨t1 ++ t2, by rw [h2, h1, List.append_assoc]⟩

theorem close_first_open_map_id :
    ∀ (ps : List Position) (pid : Option String) (price : ℚ) (t : ℕ)
      (ps2 : List Position) (q : ℚ),
      close_first_open ps pid price t = some (ps2, q) →
      ps2.map (fun p => p.id) = ps.map (fun p => p.id) := by
  intro ps
  induction ps with
  | nil => intro pid price t ps2 q h; cases h
  | cons p rest ih =>
    intro pid price t ps2 q h
    unfold close_first_open at h
    split at h
    · injection h with h1
      injection h1 with h2 h3
      subst h2
      simp
    · split at h
      · rename_i rest2 q2 hrec
        injection h with h1
        injection h1 with h2 h3
        subst h2
        simp only [List.map_cons]
        rw [ih _ _ _ _ _ hrec]
      · cases h

theorem fulfill_order_ids {st : BState} {o : Order} {price : ℚ} {t : ℕ}
    {chk : Bool} {st1 : BState} {o2 : Order}
    (h : fulfill_order st o price t chk = .ok (st1, o2)) :
    st1.positions.map (fun p => p.id) = st.positions.map (fun p => p.id) ∨
    st1.positions.map (fun p => p.id) =
      st.positions.map (fun p => p.id) ++
        [Nat.repr (st.positions.length + 1)] := by
  unfold fulfill_order at h
  repeat' first
    | split at h
    | dsimp only at h
  all_goals first
    | exact Except.noConfusion h
    | (injection h with h1; injection h1 with h2 h3; subst h2;
       first
         | exact Or.inl rfl
         | (refine Or.inl ?_
            rename_i ps2 q hc
            simpa using close_first_open_map_id _ _ _ _ _ _ hc)
         | (refine Or.inr ?_
            simp [enter_new]))

theorem fulfill_order_error_state {st : BState} {o : Order} {price : ℚ}
    {t : ℕ} {chk : Bool} {e : PyErr} {st' : BState}
    (h : fulfill_order st o price t chk = .error (e, st')) : st' = st := by
  unfold fulfill_order at h
  repeat' first
    | split at h
    | dsimp only at h
  all_goals first
    | exact Except.noConfusion h
    | (injection h with h1; injection h1 with h2 h3; exact h3.symm)

theorem inv_of_ids_eq {s1 s2 : BState} (h : ids_of s2 = ids_of s1)
    (hinv : ledger_ids_inv s1) : ledger_ids_inv s2 := by
  have hlen : s2.positions.length = s1.positions.length := by
    have h2 := congrArg List.length h
    simpa using h2
  show ids_of s2 =
    (List.range s2.positions.length).map (fun k => Nat.repr (k + 1))
  rw [h, hlen]
  exact hinv

theorem inv_of_ids_append {s1 s2 : BState}
    (h : ids_of s2 = ids_of s1 ++ [Nat.repr (s1.positions.length + 1)])
    (hinv : ledger_ids_inv s1) : ledger_ids_inv s2 := by
  have hlen : s2.positions.length = s1.positions.length + 1 := by
    have h2 := congrArg List.length h
    simpa using h2
  show ids_of s2 =
    (List.range s2.positions.length).map (fun k => Nat.repr (k + 1))
  have hinv2 : ids_of s1 =
      (List.range s1.positions.length).map (fun k => Nat.repr (k + 1)) := hinv
  rw [h, hlen, hinv2, List.range_succ]
  simp

theorem fulfill_order_inv_ext {st : BState} {o : Order} {price : ℚ} {t : ℕ}
    {chk : Bool} {st1 : BState} {o2 : Order}
    (hok : fulfill_order st o price t chk = .ok (st1, o2))
    (hinv : ledger_ids_inv st) :
    ledger_ids_inv st1 ∧ ids_extends st st1 := by
  rcases fulfill_order_ids hok with he | he
  · exact ⟨inv_of_ids_eq he hinv, ⟨[], by simp [ids_of, he]⟩⟩
  · exact ⟨inv_of_ids_append he hinv, ⟨_, he⟩⟩

theorem fulfill_orders_seq_res {next : Bar} :
    ∀ (os : List Order) (st : BState), ledger_ids_inv st →
      (∀ st', fulfill_orders_seq st next os = .ok st' →
        ledger_ids_inv st' ∧ ids_extends st st') ∧
      (∀ e st', fulfill_orders_seq st next os = .error (e, st') →
        ledger_ids_inv st' ∧ ids_extends st st') := by
  intro os
  induction os with
  | nil =>
    intro st hinv
    constructor
    · intro st' h
      injection h with h1
      rw [← h1]
      exact ⟨hinv, ids_extends_refl st⟩
    · intro e st' h
      cases h
  | cons o rest ih =>
    intro st hinv
    constructor
    · intro st' h
      unfold fulfill_orders_seq at h
      split at h
      · exact Except.noConfusion h
      · rename_i st1 o2 hf
        obtain ⟨hi1, he1⟩ := fulfill_order_inv_ext hf hinv
        obtain ⟨hi2, he2⟩ := (ih st1 hi1).1 st' h
        exact ⟨hi2, ids_extends_trans he1 he2⟩
    · intro e st' h
      unfold fulfill_orders_seq at h
      split at h
      · rename_i es hf
        injection h with h1
        rw [h1] at hf
        have hst := fulfill_order_error_state hf
        rw [hst]
        exact ⟨hinv, ids_extends_refl st⟩
      · rename_i st1 o2 hf
        obtain ⟨hi1, he1⟩ := fulfill_order_inv_ext hf hinv
        obtain ⟨hi2, he2⟩ := (ih st1 hi1).2 e st' h
        exact ⟨hi2, ids_extends_trans he1 he2⟩

theorem fulfill_limit_go_res (next : Bar) :
    ∀ (fuel : ℕ) (st : BState) (i : ℕ), ledger_ids_inv st →
      (∀ st', fulfill_limit_go next fuel st i = .ok st' →
        ledger_ids_inv st' ∧ ids_extends st st') ∧
      (∀ e st', fulfill_limit_go next fuel st i = .error (e, st') →
        ledger_ids_inv st' ∧ ids_extends st st') := by
  intro fuel
  induction fuel with
  | zero =>
    intro st i hinv
    constructor
    · intro st' h
      injection h with h1
      rw [← h1]
      exact ⟨hinv, ids_extends_refl st⟩
    · intro e st' h
      cases h
  | succ fuel ih =>
    intro st i hinv
    have hmain : ∀ (r : Except (PyErr × BState) BState),
        fulfill_limit_go next (fuel + 1) st i = r →
        (∀ st', r = .ok st' → ledger_ids_inv st' ∧ ids_extends st st') ∧
        (∀ e st', r = .error (e, st') →
          ledger_ids_inv st' ∧ ids_extends st st') := by
      intro r hr
      unfold fulfill_limit_go at hr
      split at hr
      · rename_i hlen
        dsimp only at hr
        split at hr
        · constructor
          · intro st' h2
            rw [← hr] at h2
            exact Except.noConfusion h2
          · intro e st' h2
            rw [← hr] at h2
            injection h2 with h1
            injection h1 with ha hb
            rw [← hb]
            exact ⟨hinv, ids_extends_refl st⟩
        · constructor
          · intro st' h2
            rw [← hr] at h2
            exact Except.noConfusion h2
          · intro e st' h2
            rw [← hr] at h2
            injection h2 with h1
            injection h1 with ha hb
            rw [← hb]
            exact ⟨hinv, ids_extends_refl st⟩
        · rename_i b p hb hp
          by_cases hgd : (if b = true then decide (next.Low ≤ p)
              else decide (next.High ≥ p)) = true
          · rw [if_pos hgd] at hr
            split at hr
            · rename_i es hf
              constructor
              · intro st' h2
                rw [← hr] at h2
                exact Except.noConfusion h2
              · intro e st' h2
                rw [← hr] at h2
                injection h2 with h1
                rw [h1] at hf
                have hst := fulfill_order_error_state hf
                rw [hst]
                exact ⟨hinv, ids_extends_refl st⟩
            · rename_i st1 o2 hf
              obtain ⟨hi1, he1⟩ := fulfill_order_inv_ext hf hinv
              have hi1b : ledger_ids_inv
                  { st1 with open_orders :=
                    (st1.open_orders.set i o2).erase o2 } := hi1
              have he1b : ids_extends st
                  { st1 with open_orders :=
                    (st1.open_orders.set i o2).erase o2 } := he1
              constructor
              · intro st' h2
                rw [← hr] at h2
                obtain ⟨hi2, he2⟩ := (ih _ _ hi1b).1 st' h2
                exact ⟨hi2, ids_extends_trans he1b he2⟩
              · intro e st' h2
                rw [← hr] at h2
                obtain ⟨hi2, he2⟩ := (ih _ _ hi1b).2 e st' h2
                exact ⟨hi2, ids_extends_trans he1b he2⟩
          · rw [if_neg hgd] at hr
            constructor
            · intro st' h2
              rw [← hr] at h2
              exact (ih _ _ hinv).1 st' h2
            · intro e st' h2
              rw [← hr] at h2
              exact (ih _ _ hinv).2 e st' h2
      · constructor
        · intro st' h2
          rw [← hr] at h2
          injection h2 with h1
          rw [← h1]
          exact ⟨hinv, ids_extends_refl st⟩
        · intro e st' h2
          rw [← hr] at h2
          exact Except.noConfusion h2
    exact ⟨fun st' h => (hmain _ rfl).1 st' h,
      fun e st' h => (hmain _ rfl).2 e st' h⟩

end Backtest

namespace Backtest

theorem run_step_res {st : BState} {bar : Bar} {orders : List Order}
    (hinv : ledger_ids_inv st) :
    (∀ st', run_step st bar orders = .ok st' →
      ledger_ids_inv st' ∧ ids_extends st st') ∧
    (∀ e st', run_step st bar orders = .error (e, st') →
      ledger_ids_inv st' ∧ ids_extends st st') := by
  have hmain : ∀ r, run_step st bar orders = r →
      (∀ st', r = .ok st' → ledger_ids_inv st' ∧ ids_extends st st') ∧
      (∀ e st', r = .error (e, st') →
        ledger_ids_inv st' ∧ ids_extends st st') := by
    intro r hr
    unfold run_step at hr
    split at hr
    · constructor
      · intro st' h2
        rw [← hr] at h2
        exact Except.noConfusion h2
      · intro e st' h2
        rw [← hr] at h2
        injection h2 with h1
        injection h1 with ha hb
        rw [← hb]
        exact ⟨hinv, ids_extends_refl st⟩
    · split at hr
      · constructor
        · intro st' h2
          rw [← hr] at h2
          exact Except.noConfusion h2
        · intro e st' h2
          rw [← hr] at h2
          injection h2 with h1
          injection h1 with ha hb
          rw [← hb]
          exact ⟨hinv, ids_extends_refl st⟩
      · split at hr
        · constructor
          · intro st' h2
            rw [← hr] at h2
            exact Except.noConfusion h2
          · intro e st' h2
            rw [← hr] at h2
            injection h2 with h1
            injection h1 with ha hb
            rw [← hb]
            exact ⟨hinv, ids_extends_refl st⟩
        · dsimp only at hr
          split at hr
          · rename_i es hmkt
            constructor
            · intro st' h2
              rw [← hr] at h2
              exact Except.noConfusion h2
            · intro e st' h2
              rw [← hr] at h2
              injection h2 with h1
              rw [h1] at hmkt
              unfold fulfill_market_orders at hmkt
              have hinv1 : ledger_ids_inv (update_open_orders st
                  (orders.filter (fun o => o.is_limit))) := hinv
              obtain ⟨hi, he⟩ := (fulfill_orders_seq_res _ _ hinv1).2 e st' hmkt
              exact ⟨hi, he⟩
          · rename_i st2 hmkt
            unfold fulfill_market_orders at hmkt
            have hinv1 : ledger_ids_inv (update_open_orders st
                (orders.filter (fun o => o.is_limit))) := hinv
            obtain ⟨hi2, he2⟩ := (fulfill_orders_seq_res _ _ hinv1).1 st2 hmkt
            have hgo := fulfill_limit_go_res bar st2.open_orders.length st2 0 hi2
            constructor
            · intro st' h2
              rw [← hr] at h2
              unfold fulfill_limit_orders at h2
              obtain ⟨hi3, he3⟩ := hgo.1 st' h2
              exact ⟨hi3, ids_extends_trans (b := st2) he2 he3⟩
            · intro e st' h2
              rw [← hr] at h2
              unfold fulfill_limit_orders at h2
              obtain ⟨hi3, he3⟩ := hgo.2 e st' h2
              exact ⟨hi3, ids_extends_trans (b := st2) he2 he3⟩
  exact ⟨fun st' h => (hmain _ rfl).1 st' h,
    fun e st' h => (hmain _ rfl).2 e st' h⟩

theorem run_steps_res :
    ∀ (steps : List (Bar × List Order)) (st : BState), ledger_ids_inv st →
      (∀ st', run_steps st steps = .ok st' →
        ledger_ids_inv st' ∧ ids_extends st st') ∧
      (∀ e st', run_steps st steps = .error (e, st') →
        ledger_ids_inv st' ∧ ids_extends st st') := by
  intro steps
  induction steps with
  | nil =>
    intro st hinv
    constructor
    · intro st' h
      injection h with h1
      rw [← h1]
      exact ⟨hinv, ids_extends_refl st⟩
    · intro e st' h
      cases h
  | cons sb rest ih =>
    intro st hinv
    constructor
    · intro st' h
      unfold run_steps at h
      split at h
      · exact Except.noConfusion h
      · rename_i st1 hstep
        obtain ⟨hi1, he1⟩ := (run_step_res hinv).1 st1 hstep
        obtain ⟨hi2, he2⟩ := (ih st1 hi1).1 st' h
        exact ⟨hi2, ids_extends_trans he1 he2⟩
    · intro e st' h
      unfold run_steps at h
      split at h
      · rename_i es hstep
        injection h with h1
        rw [h1] at hstep
        exact (run_step_res hinv).2 e st' hstep
      · rename_i st1 hstep
        obtain ⟨hi1, he1⟩ := (run_step_res hinv).1 st1 hstep
        obtain ⟨hi2, he2⟩ := (ih st1 hi1).2 e st' h
        exact ⟨hi2, ids_extends_trans he1 he2⟩

theorem repr_succ_injective :
    Function.Injective (fun k : ℕ => Nat.repr (k + 1)) := by
  intro a b hab
  have h := NatRepr_inj hab
  omega

theorem inv_nodup {st : BState} (hinv : ledger_ids_inv st) :
    (ids_of st).Nodup := by
  have hinv2 : ids_of st =
      (List.range st.positions.length).map (fun k => Nat.repr (k + 1)) := hinv
  rw [hinv2]
  exact (List.nodup_range _).map repr_succ_injective

theorem nodup_filter_id_le_one :
    ∀ (l : List Position), (l.map (fun p => p.id)).Nodup →
    ∀ oid : String, (l.filter (fun p => p.id == oid)).length ≤ 1 := by
  intro l
  induction l with
  | nil =>
    intro _ oid
    simp
  | cons p rest ih =>
    intro hnd oid
    simp only [List.map_cons, List.nodup_cons] at hnd
    by_cases hp : (p.id == oid) = true
    · rw [List.filter_cons, if_pos hp]
      have hempty : rest.filter (fun q => q.id == oid) = [] := by
        rw [List.filter_eq_nil_iff]
        intro q hq hq2
        have h1 : p.id = oid := by simpa using hp
        have h2 : q.id = oid := by simpa using hq2
        exact hnd.1 (List.mem_map.mpr ⟨q, hq, by rw [h2, h1]⟩)
      rw [hempty]
      simp
    · rw [List.filter_cons, if_neg hp]
      exact ih hnd.2 oid

end Backtest

namespace Backtest

def c10_state : BState :=
  { cash_balance := .inf, positions := [], open_orders := [] }

def c10_pos : Position :=
  { id := "1", entry_time := 1, entry_price := 1, quantity := 3 }

def c10_after : BState :=
  { cash_balance := .inf, positions := [c10_pos], open_orders := [] }

/-- Claim C10: every position created during a run gets id equal to the
decimal string of the new ledger length (`enter_new` appends exactly
`Nat.repr (length + 1)`); the fresh engine state satisfies the id
invariant; every step — and every whole run — preserves it (also in the
state carried by a raised error) and only ever appends to the ledger; and
under the invariant the ledger's ids are pairwise distinct, so an Exit
order's `position_id` matches at most one position. -/
theorem claim_c10 :
    (∀ (st : BState) (q price : ℚ) (t : ℕ),
      (enter_new st q price t).positions.map (fun p => p.id) =
        st.positions.map (fun p => p.id) ++
          [Nat.repr (st.positions.length + 1)]) ∧
    (∀ cash : XF, ledger_ids_inv
      { cash_balance := cash, positions := [], open_orders := [] }) ∧
    (∀ (st : BState) (bar : Bar) (orders : List Order), ledger_ids_inv st →
      (∀ st', run_step st bar orders = .ok st' →
        ledger_ids_inv st' ∧ ids_extends st st') ∧
      (∀ e st', run_step st bar orders = .error (e, st') →
        ledger_ids_inv st' ∧ ids_extends st st')) ∧
    (∀ (steps : List (Bar × List Order)) (st : BState), ledger_ids_inv st →
      ∀ st', run_steps st steps = .ok st' →
        ledger_ids_inv st' ∧ ids_extends st st') ∧
    (∀ st : BState, ledger_ids_inv st →
      (ids_of st).Nodup ∧
      ∀ oid : String,
        (st.positions.filter (fun p => p.id == oid)).length ≤ 1) := by
  refine ⟨?_, ?_, ?_, ?_, ?_⟩
  · intro st q price t
    simp [enter_new]
  · intro cash
    rfl
  · intro st bar orders hinv
    exact run_step_res hinv
  · intro steps st hinv st' h
    exact (run_steps_res steps st hinv).1 st' h
  · intro st hinv
    exact ⟨inv_nodup hinv,
      fun oid => nodup_filter_id_le_one st.positions (inv_nodup hinv) oid⟩

/-- Witness for C10: a concrete step that opens the first position yields a
ledger satisfying the id invariant and extending the previous ledger, with
pairwise distinct ids. -/
theorem claim_c10_witness :
    (ledger_ids_inv c10_after ∧ ids_extends c10_state c10_after) ∧
    (ids_of c10_after).Nodup := by
  have h := (claim_c10.2.2.1 c10_state c7_bar [fix_market_order]
    (by decide)).1 c10_after (by decide)
  exact ⟨h, (claim_c10.2.2.2.2 c10_after h.1).1⟩

end Backtest

namespace Backtest

/-! Pointwise description of the cash-series updates of `_calculate_pnl`. -/

theorem zip_map_length (f : Bar × ℚ → ℚ) :
    ∀ (data : List Bar) (c : List ℚ), c.length = data.length →
    ((data.zip c).map f).length = data.length := by
  intro data
  induction data with
  | nil => intro c _; simp
  | cons b rest ih =>
    intro c hlen
    cases c with
    | nil => simp at hlen
    | cons x xs =>
      simp only [List.zip_cons_cons, List.map_cons, List.length_cons]
      rw [ih xs (by simpa using hlen)]

theorem cash_update_getD (g : ℕ → ℚ → ℚ) :
    ∀ (data : List Bar) (c : List ℚ) (k : ℕ), k < data.length →
    c.length = data.length →
    ((data.zip c).map (fun bc => g bc.1.time bc.2)).getD k 0 =
      g ((data.map (fun b => b.time)).getD k 0) (c.getD k 0) := by
  intro data
  induction data with
  | nil =>
    intro c k hk _
    simp at hk
  | cons b rest ih =>
    intro c k hk hlen
    cases c with
    | nil => simp at hlen
    | cons x xs =>
      cases k with
      | zero => simp
      | succ k =>
        simp only [List.zip_cons_cons, List.map_cons, List.getD_cons_succ]
        exact ih xs k (by simpa using hk) (by simpa using hlen)

theorem const_map_getD (base : ℚ) :
    ∀ (data : List Bar) (k : ℕ), k < data.length →
    (data.map (fun _ => base)).getD k 0 = base := by
  intro data
  induction data with
  | nil =>
    intro k hk
    simp at hk
  | cons b rest ih =>
    intro k hk
    cases k with
    | zero => simp
    | succ k =>
      simp only [List.map_cons, List.getD_cons_succ]
      exact ih k (by simpa using hk)

theorem process_position_cash {data : List Bar} {p : Position}
    {cash0 : List ℚ} {cols0 : List (String × List ℚ)}
    {cash1 : List ℚ} {cols1 : List (String × List ℚ)}
    (h : process_position data (cash0, cols0) p = .ok (cash1, cols1))
    (hlen : cash0.length = data.length) :
    cash1.length = data.length ∧
    ∀ k, k < data.length →
      cash1.getD k 0 = cash0.getD k 0
        - (if p.entry_time ≤ (data.map (fun b => b.time)).getD k 0
            then p.entry_price * p.quantity else 0)
        + (match p.exit_time with
           | some xt =>
             if xt ≤ (data.map (fun b => b.time)).getD k 0
             then p.exit_price.getD 0 * p.quantity else 0
           | none => 0) := by
  unfold process_position at h
  dsimp only at h
  cases hlq : last_quantity_time (data.map (fun b => b.time)) p with
  | error e =>
    rw [hlq] at h
    exact Except.noConfusion h
  | ok lq =>
    rw [hlq] at h
    dsimp only at h
    cases hxt : p.exit_time with
    | none =>
      rw [hxt] at h
      dsimp only at h
      injection h with h1
      injection h1 with h2 h3
      subst h2
      simp only [hxt]
      constructor
      · exact zip_map_length _ data cash0 hlen
      · intro k hk
        have hpt := cash_update_getD
          (fun t c => if p.entry_time ≤ t
            then c - p.entry_price * p.quantity else c)
          data cash0 k hk hlen
        beta_reduce at hpt
        rw [hpt]
        by_cases hc : p.entry_time ≤ (data.map (fun b => b.time)).getD k 0
        · simp only [if_pos hc]; ring
        · simp only [if_neg hc]; ring
    | some xt =>
      rw [hxt] at h
      cases hxp : p.exit_price with
      | none =>
        rw [hxp] at h
        dsimp only at h
        exact Except.noConfusion h
      | some xp =>
        rw [hxp] at h
        dsimp only at h
        injection h with h1
        injection h1 with h2 h3
        subst h2
        simp only [hxt, hxp, Option.getD_some]
        have hlenA : ((data.zip cash0).map (fun bc =>
            if p.entry_time ≤ bc.1.time
            then bc.2 - p.entry_price * p.quantity else bc.2)).length =
            data.length := zip_map_length _ data cash0 hlen
        constructor
        · exact zip_map_length _ data _ hlenA
        · intro k hk
          have hpt2 := cash_update_getD
            (fun t c => if xt ≤ t then c + xp * p.quantity else c)
            data _ k hk hlenA
          have hpt1 := cash_update_getD
            (fun t c => if p.entry_time ≤ t
              then c - p.entry_price * p.quantity else c)
            data cash0 k hk hlen
          beta_reduce at hpt2 hpt1
          rw [hpt2, hpt1]
          by_cases hc1 : p.entry_time ≤ (data.map (fun b => b.time)).getD k 0 <;>
            by_cases hc2 : xt ≤ (data.map (fun b => b.time)).getD k 0
          · simp only [if_pos hc1, if_pos hc2]
          · simp only [if_pos hc1, if_neg hc2]; ring
          · simp only [if_neg hc1, if_pos hc2]; ring
          · simp only [if_neg hc1, if_neg hc2]; ring

end Backtest

namespace Backtest

theorem pnl_fold_cash {data : List Bar} :
    ∀ (ps : List Position) (cash0 : List ℚ)
      (cols0 : List (String × List ℚ)) (cash1 : List ℚ)
      (cols1 : List (String × List ℚ)),
      List.foldlM (process_position data) (cash0, cols0) ps =
        .ok (cash1, cols1) →
      cash0.length = data.length →
      cash1.length = data.length ∧
      ∀ k, k < data.length →
        cash1.getD k 0 = cash0.getD k 0
          - (ps.map (fun p =>
              if p.entry_time ≤ (data.map (fun b => b.time)).getD k 0
              then p.entry_price * p.quantity else 0)).sum
          + (ps.map (fun p =>
              match p.exit_time with
              | some xt =>
                if xt ≤ (data.map (fun b => b.time)).getD k 0
                then p.exit_price.getD 0 * p.quantity else 0
              | none => 0)).sum := by
  intro ps
  induction ps with
  | nil =>
    intro cash0 cols0 cash1 cols1 h hlen
    dsimp only [List.foldlM] at h
    injection h with h1
    injection h1 with h2 h3
    subst h2
    exact ⟨hlen, fun k hk => by simp⟩
  | cons p rest ih =>
    intro cash0 cols0 cash1 cols1 h hlen
    rw [List.foldlM_cons] at h
    cases hstep : process_position data (cash0, cols0) p with
    | error e =>
      rw [hstep] at h
      dsimp only [Bind.bind, Except.bind] at h
      exact Except.noConfusion h
    | ok acc1 =>
      rw [hstep] at h
      dsimp only [Bind.bind, Except.bind] at h
      obtain ⟨accCash, accCols⟩ := acc1
      obtain ⟨hl1, hpt1⟩ := process_position_cash hstep hlen
      obtain ⟨hl2, hpt2⟩ := ih accCash accCols cash1 cols1 h hl1
      refine ⟨hl2, ?_⟩
      intro k hk
      rw [hpt2 k hk, hpt1 k hk]
      simp only [List.map_cons, List.sum_cons]
      ring

/-- Stated from claim C8 (the spec side of the refinement): per-bar cash is
the baseline, decreased by each position's entry value from its entry time
onward, and increased by each closed position's exit value from its exit
time onward. -/
def claimed_cash (base : ℚ) (positions : List Position) (t : ℕ) : ℚ :=
  base
    - (positions.map (fun p =>
        if p.entry_time ≤ t then p.entry_price * p.quantity else 0)).sum
    + (positions.map (fun p =>
        match p.exit_time with
        | some xt => if xt ≤ t then p.exit_price.getD 0 * p.quantity else 0
        | none => 0)).sum

theorem calculate_pnl_cash {data : List Bar} {startEq : XF}
    {positions : List Position} {tbl : Pnl}
    (hok : calculate_pnl data startEq positions = .ok tbl) :
    tbl.cash_balance.length = data.length ∧
    ∀ k, k < data.length →
      tbl.cash_balance.getD k 0 =
        claimed_cash (equity_base startEq) positions
          ((data.map (fun b => b.time)).getD k 0) := by
  unfold calculate_pnl at hok
  dsimp only at hok
  split at hok
  · exact Except.noConfusion hok
  · rename_i cash cols hfold
    injection hok with h1
    subst h1
    dsimp only
    obtain ⟨hl, hpt⟩ := pnl_fold_cash positions _ _ _ _ hfold (by simp)
    refine ⟨hl, ?_⟩
    intro k hk
    rw [hpt k hk, const_map_getD _ data k hk]
    rfl

end Backtest

namespace Backtest

theorem find_cons_true {α : Type} (p : α → Bool) (a : α) (l : List α)
    (h : p a = true) : List.find? p (a :: l) = some a := by
  simp [List.find?, h]

theorem find_cons_false {α : Type} (p : α → Bool) (a : α) (l : List α)
    (h : p a = false) : List.find? p (a :: l) = List.find? p l := by
  simp [List.find?, h]

theorem dict_find_replace_self {k : String} {v : List ℚ} :
    ∀ (d : List (String × List ℚ)),
      d.any (fun kv => kv.1 == k) = true →
      (d.map (fun kv => if kv.1 == k then (k, v) else kv)).find?
        (fun kv => kv.1 == k) = some (k, v) := by
  intro d
  induction d with
  | nil => intro hany; simp at hany
  | cons kv rest ih =>
    intro hany
    by_cases hk : (kv.1 == k) = true
    · simp only [List.map_cons, if_pos hk]
      exact find_cons_true (fun kv => kv.1 == k) (k, v) _ (by simp)
    · have hkf : (kv.1 == k) = false := Bool.not_eq_true _ ▸ hk
      simp only [List.map_cons, if_neg hk]
      rw [find_cons_false (fun kv => kv.1 == k) kv _ hkf]
      apply ih
      simp only [List.any_cons, hkf, Bool.false_or] at hany
      exact hany

theorem dict_find_append_self {k : String} {v : List ℚ} :
    ∀ (d : List (String × List ℚ)),
      d.any (fun kv => kv.1 == k) = false →
      (d ++ [(k, v)]).find? (fun kv => kv.1 == k) = some (k, v) := by
  intro d
  induction d with
  | nil =>
    intro _
    rw [List.nil_append]
    exact find_cons_true (fun kv => kv.1 == k) (k, v) _ (by simp)
  | cons kv rest ih =>
    intro hany
    simp only [List.any_cons, Bool.or_eq_false_iff] at hany
    rw [List.cons_append, find_cons_false (fun kv => kv.1 == k) kv _ hany.1]
    exact ih hany.2

theorem dict_get_insert_self (d : List (String × List ℚ)) (k : String)
    (v : List ℚ) : dict_get (dict_insert d k v) k = some v := by
  unfold dict_insert dict_get
  by_cases hany : (d.any (fun kv => kv.1 == k)) = true
  · rw [if_pos hany, dict_find_replace_self d hany]
  · rw [if_neg hany, dict_find_append_self d (Bool.not_eq_true _ ▸ hany)]

theorem dict_find_replace_ne {k k2 : String} {v : List ℚ} (hne : k ≠ k2) :
    ∀ (d : List (String × List ℚ)),
      (d.map (fun kv => if kv.1 == k2 then (k2, v) else kv)).find?
        (fun kv => kv.1 == k) = d.find? (fun kv => kv.1 == k) := by
  intro d
  induction d with
  | nil => rfl
  | cons kv rest ih =>
    by_cases hk2 : (kv.1 == k2) = true
    · have hkv : kv.1 = k2 := by simpa using hk2
      have hnotk : (kv.1 == k) = false := by
        rw [hkv]
        simp
        exact fun hc => hne hc.symm
      have hnotk2 : ((k2, v).1 == k) = false := by
        simp
        exact fun hc => hne hc.symm
      simp only [List.map_cons, if_pos hk2]
      rw [find_cons_false (fun kv => kv.1 == k) (k2, v) _ hnotk2, find_cons_false (fun kv => kv.1 == k) kv _ hnotk]
      exact ih
    · simp only [List.map_cons, if_neg hk2]
      by_cases hk : (kv.1 == k) = true
      · rw [find_cons_true (fun kv => kv.1 == k) kv _ hk, find_cons_true (fun kv => kv.1 == k) kv _ hk]
      · have hkf : (kv.1 == k) = false := Bool.not_eq_true _ ▸ hk
        rw [find_cons_false (fun kv => kv.1 == k) kv _ hkf, find_cons_false (fun kv => kv.1 == k) kv _ hkf]
        exact ih

theorem dict_find_append_ne {k k2 : String} {v : List ℚ} (hne : k ≠ k2) :
    ∀ (d : List (String × List ℚ)),
      (d ++ [(k2, v)]).find? (fun kv => kv.1 == k) =
        d.find? (fun kv => kv.1 == k) := by
  intro d
  induction d with
  | nil =>
    have hnotk2 : ((k2, v).1 == k) = false := by
      simp
      exact fun hc => hne hc.symm
    rw [List.nil_append, find_cons_false (fun kv => kv.1 == k) (k2, v) _ hnotk2]
  | cons kv rest ih =>
    by_cases hk : (kv.1 == k) = true
    · rw [List.cons_append, find_cons_true (fun kv => kv.1 == k) kv _ hk, find_cons_true (fun kv => kv.1 == k) kv _ hk]
    · have hkf : (kv.1 == k) = false := Bool.not_eq_true _ ▸ hk
      rw [List.cons_append, find_cons_false (fun kv => kv.1 == k) kv _ hkf, find_cons_false (fun kv => kv.1 == k) kv _ hkf]
      exact ih

theorem dict_get_insert_ne (d : List (String × List ℚ)) {k k2 : String}
    (hne : k ≠ k2) (v : List ℚ) :
    dict_get (dict_insert d k2 v) k = dict_get d k := by
  unfold dict_insert dict_get
  by_cases hany : (d.any (fun kv => kv.1 == k2)) = true
  · rw [if_pos hany, dict_find_replace_ne hne d]
  · rw [if_neg hany, dict_find_append_ne hne d]

theorem pos_key_ne {a b : String} (h : a ≠ b) :
    ("pos-" ++ a ++ "-value" : String) ≠ "pos-" ++ b ++ "-value" := by
  intro hc
  apply h
  have hd := congrArg String.data hc
  simp only [String.data_append] at hd
  have h1 := List.append_inj' hd rfl
  have h2 := List.append_inj_right h1.1 rfl
  exact String.ext h2

end Backtest

namespace Backtest

theorem process_position_cols {data : List Bar} {p : Position}
    {cash0 : List ℚ} {cols0 : List (String × List ℚ)} {cash1 : List ℚ}
    {cols1 : List (String × List ℚ)}
    (h : process_position data (cash0, cols0) p = .ok (cash1, cols1)) :
    ∃ lq, last_quantity_time (data.map (fun b => b.time)) p = .ok lq ∧
      cols1 = dict_insert cols0 ("pos-" ++ p.id ++ "-value")
        (data.map (fun b =>
          (if p.entry_time ≤ b.time ∧ b.time ≤ lq then p.quantity else 0)
            * b.Close)) := by
  unfold process_position at h
  dsimp only at h
  cases hlq : last_quantity_time (data.map (fun b => b.time)) p with
  | error e =>
    rw [hlq] at h
    exact Except.noConfusion h
  | ok lq =>
    rw [hlq] at h
    dsimp only at h
    cases hxt : p.exit_time with
    | none =>
      rw [hxt] at h
      dsimp only at h
      injection h with h1
      injection h1 with h2 h3
      exact ⟨lq, rfl, h3.symm⟩
    | some xt =>
      rw [hxt] at h
      cases hxp : p.exit_price with
      | none =>
        rw [hxp] at h
        dsimp only at h
        exact Except.noConfusion h
      | some xp =>
        rw [hxp] at h
        dsimp only at h
        injection h with h1
        injection h1 with h2 h3
        exact ⟨lq, rfl, h3.symm⟩

theorem fold_cols_preserve {data : List Bar} :
    ∀ (ps : List Position) (cash0 : List ℚ)
      (cols0 : List (String × List ℚ)) (cash1 : List ℚ)
      (cols1 : List (String × List ℚ)) (k : String),
      List.foldlM (process_position data) (cash0, cols0) ps =
        .ok (cash1, cols1) →
      (∀ q ∈ ps, ("pos-" ++ q.id ++ "-value") ≠ k) →
      dict_get cols1 k = dict_get cols0 k := by
  intro ps
  induction ps with
  | nil =>
    intro cash0 cols0 cash1 cols1 k h _
    dsimp only [List.foldlM] at h
    injection h with h1
    injection h1 with h2 h3
    rw [← h3]
  | cons p0 rest ih =>
    intro cash0 cols0 cash1 cols1 k h hk
    rw [List.foldlM_cons] at h
    cases hstep : process_position data (cash0, cols0) p0 with
    | error e =>
      rw [hstep] at h
      dsimp only [Bind.bind, Except.bind] at h
      exact Except.noConfusion h
    | ok acc =>
      rw [hstep] at h
      dsimp only [Bind.bind, Except.bind] at h
      obtain ⟨accCash, accCols⟩ := acc
      obtain ⟨lq0, hlq0, hcols⟩ := process_position_cols hstep
      rw [ih accCash accCols cash1 cols1 k h
        (fun q hq => hk q (List.mem_cons_of_mem p0 hq)), hcols]
      exact dict_get_insert_ne cols0
        (fun he => hk p0 (List.mem_cons_self p0 rest) he.symm) _

theorem fold_cols_lookup {data : List Bar} :
    ∀ (ps : List Position) (cash0 : List ℚ)
      (cols0 : List (String × List ℚ)) (cash1 : List ℚ)
      (cols1 : List (String × List ℚ)),
      List.foldlM (process_position data) (cash0, cols0) ps =
        .ok (cash1, cols1) →
      (ps.map (fun p => p.id)).Nodup →
      ∀ p ∈ ps, ∃ lq,
        last_quantity_time (data.map (fun b => b.time)) p = .ok lq ∧
        dict_get cols1 ("pos-" ++ p.id ++ "-value") =
          some (data.map (fun b =>
            (if p.entry_time ≤ b.time ∧ b.time ≤ lq then p.quantity else 0)
              * b.Close)) := by
  intro ps
  induction ps with
  | nil =>
    intro cash0 cols0 cash1 cols1 _ _ p hp
    exact absurd hp (List.not_mem_nil p)
  | cons p0 rest ih =>
    intro cash0 cols0 cash1 cols1 h hnd p hp
    rw [List.foldlM_cons] at h
    cases hstep : process_position data (cash0, cols0) p0 with
    | error e =>
      rw [hstep] at h
      dsimp only [Bind.bind, Except.bind] at h
      exact Except.noConfusion h
    | ok acc =>
      rw [hstep] at h
      dsimp only [Bind.bind, Except.bind] at h
      obtain ⟨accCash, accCols⟩ := acc
      obtain ⟨lq0, hlq0, hcols⟩ := process_position_cols hstep
      simp only [List.map_cons, List.nodup_cons] at hnd
      rcases List.mem_cons.mp hp with heq | hprest
      · subst heq
        refine ⟨lq0, hlq0, ?_⟩
        have hpres : dict_get cols1 ("pos-" ++ p.id ++ "-value") =
            dict_get accCols ("pos-" ++ p.id ++ "-value") := by
          refine fold_cols_preserve rest accCash accCols cash1 cols1 _ h ?_
          intro q hq
          refine pos_key_ne (fun hid => ?_)
          exact hnd.1 (hid ▸ List.mem_map_of_mem (fun r => r.id) hq)
        rw [hpres, hcols, dict_get_insert_self]
      · exact ih accCash accCols cash1 cols1 h hnd.2 p hprest

theorem findIdx_unique :
    ∀ (times : List ℕ), List.Pairwise (fun a b => a < b) times →
    ∀ (j : ℕ) (hj : j < times.length) (xt : ℕ),
      times.get ⟨j, hj⟩ = xt →
      times.findIdx? (fun u => u == xt) = some j := by
  intro times
  induction times with
  | nil => intro _ j hj; simp at hj
  | cons t rest ih =>
    intro hs j hj xt hjt
    rw [List.pairwise_cons] at hs
    cases j with
    | zero =>
      simp only [List.get] at hjt
      rw [List.findIdx?_cons]
      simp [hjt]
    | succ j =>
      have hj2 : j < rest.length := by simpa using hj
      have hmem : rest.get ⟨j, hj2⟩ = xt := by simpa using hjt
      have htlt : t < xt := by
        have := hs.1 (rest.get ⟨j, hj2⟩) (List.get_mem rest j hj2)
        rw [hmem] at this
        exact this
      rw [List.findIdx?_cons]
      have hne : (t == xt) = false := by
        simp only [beq_eq_false_iff_ne, ne_eq]
        omega
      rw [hne]
      simp only [Bool.false_eq_true, if_false]
      rw [List.findIdx?_succ, ih hs.2 j hj2 xt hmem]
      rfl

theorem get_last_eq_getLastD {l : List ℕ} (hne : l ≠ [])
    (hi : l.length - 1 < l.length) :
    l.get ⟨l.length - 1, hi⟩ = l.getLastD 0 := by
  cases l with
  | nil => exact absurd rfl hne
  | cons x xs =>
    rw [List.getLastD_cons, ← List.getLast_eq_getLastD x xs]
    exact (List.getLast_eq_get (x :: xs) (by simp)).symm

theorem get_congr {l : List ℕ} {a b : ℕ} (ha : a < l.length)
    (hb : b < l.length) (hab : a = b) : l.get ⟨a, ha⟩ = l.get ⟨b, hb⟩ := by
  subst hab
  rfl

theorem last_quantity_open {times : List ℕ} {p : Position}
    (hp : p.exit_time = none) (hne : times ≠ []) :
    last_quantity_time times p = .ok (times.getLastD 0) := by
  unfold last_quantity_time
  rw [hp]
  dsimp only
  unfold py_index_get
  dsimp only
  have hlen : 0 < times.length := List.length_pos.mpr hne
  split
  · rename_i h0
    exact absurd h0 (by decide)
  · split
    · congr 1
      rw [← get_last_eq_getLastD hne (by omega)]
      apply get_congr
      omega
    · rename_i h2
      exact absurd ⟨by omega, by omega⟩ h2

theorem last_quantity_closed {times : List ℕ} {p : Position} {xt : ℕ}
    (hs : List.Pairwise (fun a b => a < b) times)
    (hxt : p.exit_time = some xt) {j : ℕ} (hj : j < times.length)
    (hjt : times.get ⟨j, hj⟩ = xt) (hj1 : 1 ≤ j) :
    last_quantity_time times p = .ok (times.get ⟨j - 1, by omega⟩) := by
  unfold last_quantity_time
  rw [hxt]
  dsimp only
  unfold get_loc
  rw [findIdx_unique times hs j hj xt hjt]
  dsimp only
  unfold py_index_get
  dsimp only
  split
  · rename_i h0
    split
    · congr 1
      apply get_congr
      omega
    · rename_i h2
      exact absurd ⟨h0, by omega⟩ h2
  · rename_i hcond
    exact absurd (by omega) hcond

theorem calculate_pnl_cols {data : List Bar} {startEq : XF}
    {positions : List Position} {tbl : Pnl}
    (hok : calculate_pnl data startEq positions = .ok tbl) :
    ∃ cash, List.foldlM (process_position data)
      (data.map (fun _ => equity_base startEq),
        ([] : List (String × List ℚ))) positions =
      .ok (cash, tbl.value_cols) := by
  unfold calculate_pnl at hok
  dsimp only at hok
  split at hok
  · exact Except.noConfusion hok
  · rename_i cash cols hfold
    injection hok with h1
    subst h1
    exact ⟨cash, hfold⟩

/-- Claim C8: in the reconstructed per-bar table, a position's value column
is `quantity * Close` on every bar from its entry time through the bar just
before its exit label (through the final bar when still open) and zero
elsewhere, and per-bar cash is the baseline decreased by
`entry_price * quantity` from the entry time onward and, for closed
positions, increased by `exit_price * quantity` from the exit time onward
(the spec-side shape is `claimed_cash`). -/
theorem claim_c8 (data : List Bar) (starting_equity : XF)
    (positions : List Position) (tbl : Pnl)
    (hok : calculate_pnl data starting_equity positions = .ok tbl)
    (hnd : (positions.map (fun p => p.id)).Nodup)
    (hsorted : List.Pairwise (fun a b => a < b)
      (data.map (fun b => b.time))) :
    (∀ k, k < data.length →
      tbl.cash_balance.getD k 0 =
        claimed_cash (equity_base starting_equity) positions
          ((data.map (fun b => b.time)).getD k 0)) ∧
    (∀ p ∈ positions,
      (p.exit_time = none → data ≠ [] →
        dict_get tbl.value_cols ("pos-" ++ p.id ++ "-value") =
          some (data.map (fun b =>
            (if p.entry_time ≤ b.time ∧
                b.time ≤ (data.map (fun b2 => b2.time)).getLastD 0
              then p.quantity else 0) * b.Close))) ∧
      (∀ xt j, p.exit_time = some xt → 1 ≤ j →
        (hj : j < (data.map (fun b2 => b2.time)).length) →
        (data.map (fun b2 => b2.time)).get ⟨j, hj⟩ = xt →
        dict_get tbl.value_cols ("pos-" ++ p.id ++ "-value") =
          some (data.map (fun b =>
            (if p.entry_time ≤ b.time ∧
                b.time ≤ (data.map (fun b2 => b2.time)).get ⟨j - 1, by omega⟩
              then p.quantity else 0) * b.Close)))) := by
  obtain ⟨cash0, hfold⟩ := calculate_pnl_cols hok
  refine ⟨(calculate_pnl_cash hok).2, ?_⟩
  intro p hp
  obtain ⟨lq, hlq, hget⟩ := fold_cols_lookup positions _ _ _ _ hfold hnd p hp
  constructor
  · intro hpnone hdne
    have hne : (data.map (fun b => b.time)) ≠ [] := by simpa using hdne
    have hval := last_quantity_open hpnone hne
    rw [hlq] at hval
    injection hval with hlqv
    rw [hget, hlqv]
  · intro xt j hxt hj1 hj hjt
    have hval := last_quantity_closed hsorted hxt hj hjt hj1
    rw [hlq] at hval
    injection hval with hlqv
    rw [hget, hlqv]

/-- Witness data for C8: three bars with strictly increasing labels. -/
def c8_data : List Bar :=
  [{ time := 0, Open := 10, High := 11, Low := 9, Close := 10, Volume := 5 },
   { time := 1, Open := 12, High := 13, Low := 11, Close := 12, Volume := 5 },
   { time := 2, Open := 14, High := 15, Low := 13, Close := 14, Volume := 5 }]

/-- Witness position for C8: closed on the bar labelled 1. -/
def c8_pos1 : Position :=
  { id := "1", entry_time := 0, entry_price := 10, exit_time := some 1,
    exit_price := some 12, quantity := 1 }

/-- Witness position for C8: still open at the end of the data. -/
def c8_pos2 : Position :=
  { id := "2", entry_time := 1, entry_price := 12, quantity := 2 }

def c8_positions : List Position := [c8_pos1, c8_pos2]

/-- The table `_calculate_pnl` reconstructs from the C8 witness data. -/
def c8_tbl : Pnl :=
  { cash_balance := [90, 78, 78],
    value_cols := [("pos-1-value", [10, 0, 0]), ("pos-2-value", [0, 24, 28])],
    equity := [PyF.fin 100, PyF.fin 102, PyF.fin 106],
    total_pnl := [PyF.fin 0, PyF.fin 2, PyF.fin 6] }

theorem claim_c8_witness :
    calculate_pnl c8_data (XF.fin 100) c8_positions = .ok c8_tbl ∧
    (c8_positions.map (fun p => p.id)).Nodup ∧
    List.Pairwise (fun a b => a < b) (c8_data.map (fun b => b.time)) ∧
    c8_tbl.cash_balance.getD 1 0 =
      claimed_cash (equity_base (XF.fin 100)) c8_positions
        ((c8_data.map (fun b => b.time)).getD 1 0) ∧
    dict_get c8_tbl.value_cols ("pos-" ++ c8_pos1.id ++ "-value") =
      some (c8_data.map (fun b =>
        (if c8_pos1.entry_time ≤ b.time ∧
            b.time ≤ (c8_data.map (fun b2 => b2.time)).get ⟨1 - 1, by decide⟩
          then c8_pos1.quantity else 0) * b.Close)) ∧
    dict_get c8_tbl.value_cols ("pos-" ++ c8_pos2.id ++ "-value") =
      some (c8_data.map (fun b =>
        (if c8_pos2.entry_time ≤ b.time ∧
            b.time ≤ (c8_data.map (fun b2 => b2.time)).getLastD 0
          then c8_pos2.quantity else 0) * b.Close)) := by
  have h := claim_c8 c8_data (XF.fin 100) c8_positions c8_tbl
    (by decide) (by decide) (by decide)
  refine ⟨by decide, by decide, by decide, h.1 1 (by decide), ?_, ?_⟩
  · exact (h.2 c8_pos1 (by decide)).2 1 1 (by decide) (by decide)
      (by decide) (by decide)
  · exact (h.2 c8_pos2 (by decide)).1 (by decide) (by decide)

theorem getLastD_mem {α : Type} :
    ∀ (l : List α) (d : α), l ≠ [] → l.getLastD d ∈ l := by
  intro l
  induction l with
  | nil => intro d h; exact absurd rfl h
  | cons a rest ih =>
    intro d _
    rw [List.getLastD_cons]
    cases rest with
    | nil => simp [List.getLastD]
    | cons b bs => exact List.mem_cons_of_mem a (ih a (by simp))

theorem dict_insert_ne_nil (d : List (String × List ℚ)) (k : String)
    (v : List ℚ) : dict_insert d k v ≠ [] := by
  unfold dict_insert
  split
  · rename_i hany
    cases d with
    | nil => simp at hany
    | cons kv rest => simp
  · simp

theorem fold_cols_ne_nil {data : List Bar} :
    ∀ (ps : List Position) (cash0 : List ℚ)
      (cols0 : List (String × List ℚ)) (cash1 : List ℚ)
      (cols1 : List (String × List ℚ)),
      List.foldlM (process_position data) (cash0, cols0) ps =
        .ok (cash1, cols1) →
      (cols0 ≠ [] ∨ ps ≠ []) → cols1 ≠ [] := by
  intro ps
  induction ps with
  | nil =>
    intro cash0 cols0 cash1 cols1 h hor
    dsimp only [List.foldlM] at h
    injection h with h1
    injection h1 with h2 h3
    subst h3
    rcases hor with h0 | h0
    · exact h0
    · exact absurd rfl h0
  | cons p0 rest ih =>
    intro cash0 cols0 cash1 cols1 h _
    rw [List.foldlM_cons] at h
    cases hstep : process_position data (cash0, cols0) p0 with
    | error e =>
      rw [hstep] at h
      dsimp only [Bind.bind, Except.bind] at h
      exact Except.noConfusion h
    | ok acc =>
      rw [hstep] at h
      dsimp only [Bind.bind, Except.bind] at h
      obtain ⟨accCash, accCols⟩ := acc
      obtain ⟨lq0, hlq0, hcols⟩ := process_position_cols hstep
      exact ih accCash accCols cash1 cols1 h
        (Or.inl (hcols ▸ dict_insert_ne_nil cols0 _ _))

theorem calculate_pnl_total_pnl_shape {data : List Bar} {startEq : XF}
    {positions : List Position} {tbl : Pnl}
    (hok : calculate_pnl data startEq positions = .ok tbl)
    (hdata : data ≠ []) :
    (positions = [] → tbl.total_pnl.getLastD (PyF.fin 0) = PyF.nan) ∧
    (positions ≠ [] →
      ∃ q, tbl.total_pnl.getLastD (PyF.fin 0) = PyF.fin q) := by
  unfold calculate_pnl at hok
  dsimp only at hok
  split at hok
  · exact Except.noConfusion hok
  · rename_i cash cols hfold
    injection hok with h1
    subst h1
    dsimp only
    constructor
    · intro hps
      subst hps
      dsimp only [List.foldlM] at hfold
      injection hfold with h2
      injection h2 with h3 h4
      subst h4
      dsimp only
      rw [List.map_map]
      have hmem := getLastD_mem
        (data.map ((fun v => PyF.subQ v (equity_base startEq)) ∘
          (fun _ => PyF.nan))) (PyF.fin 0) (by simpa using hdata)
      rw [List.mem_map] at hmem
      obtain ⟨b, _, hb⟩ := hmem
      exact hb.symm
    · intro hps
      have hcols : cols ≠ [] :=
        fold_cols_ne_nil positions _ _ _ _ hfold (Or.inr hps)
      cases cols with
      | nil => exact absurd rfl hcols
      | cons c cs =>
        dsimp only
        rw [List.map_map]
        have hlen : data.length ≠ 0 := by
          cases data with
          | nil => exact absurd rfl hdata
          | cons _ _ => simp
        have hmem := getLastD_mem
          ((List.range data.length).map
            ((fun v => PyF.subQ v (equity_base startEq)) ∘
              (fun k => PyF.fin (cash.getD k 0 +
                row_value_sum (c :: cs) k)))) (PyF.fin 0)
          (by simpa using hlen)
        rw [List.mem_map] at hmem
        obtain ⟨k, _, hk⟩ := hmem
        exact ⟨_, hk.symm⟩

/-- Claim C9 (amended): the statistics mapping reports `total_return_pct`
unconditionally.  With infinite starting equity the entry is still present:
its value is `0.0` (a finite total pnl divided by `float("inf")`) whenever
the run produced at least one position, and `nan` on a zero-trade run,
where the empty position-value frame aligns the equity and total-pnl
series to `NaN`.  The keys actually guarded by finite starting equity are
the buy-and-hold pair, `max_drawdown_pct` and `sharpe_ratio`: absent for
infinite starting equity, present for finite. -/
theorem claim_c9_amended (data : List Bar) (starting_equity : XF)
    (positions : List Position) (l : List (String × SVal))
    (hok : stats data starting_equity positions = .ok l) :
    "total_return_pct" ∈ l.map Prod.fst ∧
    (starting_equity = XF.inf →
      (positions = [] → ("total_return_pct", SVal.pyf PyF.nan) ∈ l) ∧
      (positions ≠ [] → ("total_return_pct", SVal.pyf (PyF.fin 0)) ∈ l) ∧
      "buy_and_hold_return" ∉ l.map Prod.fst ∧
      "buy_and_hold_return_pct" ∉ l.map Prod.fst ∧
      "max_drawdown_pct" ∉ l.map Prod.fst ∧
      "sharpe_ratio" ∉ l.map Prod.fst) ∧
    (∀ e, starting_equity = XF.fin e →
      "buy_and_hold_return" ∈ l.map Prod.fst ∧
      "buy_and_hold_return_pct" ∈ l.map Prod.fst ∧
      "max_drawdown_pct" ∈ l.map Prod.fst ∧
      "sharpe_ratio" ∈ l.map Prod.fst) := by
  unfold stats at hok
  split at hok
  · exact Except.noConfusion hok
  · rename_i tbl hpnl
    split at hok
    · exact Except.noConfusion hok
    · rename_i b0 rest
      dsimp only at hok
      split at hok
      · exact Except.noConfusion hok
      · rename_i pnls hmap
        injection hok with hl
        subst hl
        have hshape := calculate_pnl_total_pnl_shape hpnl (by simp)
        refine ⟨by simp, ?_, ?_⟩
        · intro hinf
          subst hinf
          refine ⟨?_, ?_, by simp, by simp, by simp, by simp⟩
          · intro hps
            have hnan := hshape.1 hps
            rw [List.getLastD_eq_getLast?] at hnan
            simp [hnan, PyF.div, XF.toPyF, PyF.mulQ]
          · intro hps
            obtain ⟨q, hq⟩ := hshape.2 hps
            rw [List.getLastD_eq_getLast?] at hq
            simp [hq, PyF.div, XF.toPyF, PyF.mulQ]
        · intro e he
          subst he
          dsimp only
          simp

/-- The statistics mapping at the C9 witness input (infinite starting
equity, no positions, the two-bar `c9_data`): the empty position-value
frame aligns the equity and total-pnl series to `NaN`, so every metric
derived from them is `nan`. -/
def c9_stats_inf : List (String × SVal) :=
  [("start", SVal.nat 0),
   ("end", SVal.nat 1),
   ("duration", SVal.int 1),
   ("starting_equity", SVal.xf XF.inf),
   ("peak_equity", SVal.pyf PyF.nan),
   ("final_equity", SVal.pyf PyF.nan),
   ("total_return", SVal.pyf PyF.nan),
   ("total_return_pct", SVal.pyf PyF.nan),
   ("exposure_time", SVal.nat 0),
   ("exposure_time_pct", SVal.rat 0),
   ("max_drawdown", SVal.pyf PyF.nan),
   ("num_trades", SVal.nat 0),
   ("win_rate", SVal.pyf PyF.nan),
   ("avg_win", SVal.rat 0),
   ("avg_loss", SVal.rat 0),
   ("best_trade", SVal.rat 0),
   ("worst_trade", SVal.rat 0),
   ("profit_factor", SVal.pyf PyF.nan),
   ("expectancy", SVal.pyf PyF.nan),
   ("max_position_duration", SVal.int 0),
   ("avg_position_duration", SVal.int 0)]

/-- A second C9 witness input: one still-open position, so the value frame
is nonempty, the equity series is finite and `total_return_pct`
degenerates to `0.0` under infinite starting equity. -/
def c9_pos : Position :=
  { id := "1", entry_time := 0, entry_price := 10, quantity := 1 }

/-- The statistics mapping at the one-position C9 witness input. -/
def c9_stats_inf_pos : List (String × SVal) :=
  [("start", SVal.nat 0),
   ("end", SVal.nat 1),
   ("duration", SVal.int 1),
   ("starting_equity", SVal.xf XF.inf),
   ("peak_equity", SVal.pyf (PyF.fin 2)),
   ("final_equity", SVal.pyf (PyF.fin 2)),
   ("total_return", SVal.pyf (PyF.fin 2)),
   ("total_return_pct", SVal.pyf (PyF.fin 0)),
   ("exposure_time", SVal.nat 2),
   ("exposure_time_pct", SVal.rat 100),
   ("max_drawdown", SVal.pyf (PyF.fin 0)),
   ("num_trades", SVal.nat 1),
   ("win_rate", SVal.rat 1),
   ("avg_win", SVal.rat 2),
   ("avg_loss", SVal.rat 0),
   ("best_trade", SVal.rat 2),
   ("worst_trade", SVal.rat 2),
   ("profit_factor", SVal.pyf PyF.nan),
   ("expectancy", SVal.rat 2),
   ("max_position_duration", SVal.int 1),
   ("avg_position_duration", SVal.rat 1)]

theorem claim_c9_witness :
    (stats c9_data XF.inf [] = .ok c9_stats_inf ∧
      "total_return_pct" ∈ c9_stats_inf.map Prod.fst ∧
      ("total_return_pct", SVal.pyf PyF.nan) ∈ c9_stats_inf ∧
      "buy_and_hold_return" ∉ c9_stats_inf.map Prod.fst ∧
      "buy_and_hold_return_pct" ∉ c9_stats_inf.map Prod.fst ∧
      "max_drawdown_pct" ∉ c9_stats_inf.map Prod.fst ∧
      "sharpe_ratio" ∉ c9_stats_inf.map Prod.fst) ∧
    (stats c9_data XF.inf [c9_pos] = .ok c9_stats_inf_pos ∧
      ("total_return_pct", SVal.pyf (PyF.fin 0)) ∈ c9_stats_inf_pos) :=
  ⟨⟨by decide,
    (claim_c9_amended c9_data XF.inf [] c9_stats_inf (by decide)).1,
    ((claim_c9_amended c9_data XF.inf [] c9_stats_inf
      (by decide)).2.1 rfl).1 rfl,
    ((claim_c9_amended c9_data XF.inf [] c9_stats_inf
      (by decide)).2.1 rfl).2.2.1,
    ((claim_c9_amended c9_data XF.inf [] c9_stats_inf
      (by decide)).2.1 rfl).2.2.2.1,
    ((claim_c9_amended c9_data XF.inf [] c9_stats_inf
      (by decide)).2.1 rfl).2.2.2.2.1,
    ((claim_c9_amended c9_data XF.inf [] c9_stats_inf
      (by decide)).2.1 rfl).2.2.2.2.2⟩,
   by decide,
   ((claim_c9_amended c9_data XF.inf [c9_pos] c9_stats_inf_pos
     (by decide)).2.1 rfl).2.1 (by decide)⟩
